import Mathlib

/-!
Verification of the mbed CLI dependency-management core (`mbed.py`).

The development shallowly embeds the pure decision logic of the tool:

* the five locator regular expressions (`regex_local_ref`, `regex_url_ref`,
  `regex_git_url`, `regex_hg_url`, `regex_mbed_url`) together with a small
  prioritized backtracking matcher reproducing Python `re.match` semantics
  (ordered alternation, greedy and lazy quantifiers, capture groups,
  both-ends anchoring: every embedded pattern is written `^...$`);
* `formaturl`, `Repo.fromurl`, `Repo.fullurl` / `Repo.write`
  (reference-file round trip);
* `Hg.isurl` / `Git.isurl`, `Hg.outgoing` / `Git.outgoing`,
  `Hg.isdetached`;
* `Repo.can_update` (the safety gate);
* `Program.set_cfg` / `Program.get_cfg` (including CPython's
  list-mutation-during-iteration semantics of the removal loop);
* the `update` traversal (obsolescence / drift / materialize passes) and the
  `publish` traversal, as instrumented tree recursions over an abstract
  filesystem/VCS state that records the events the code performs.
-/

/-! ## Python string helpers -/

/-- Python 2 `str.isspace` characters, as used by `str.strip()`. -/
def pyWs (c : Char) : Bool :=
  c = ' ' || c = '\t' || c = '\n' || c = '\r' || c = '\x0b' || c = '\x0c'

/-- `s.strip()`: drop leading and trailing whitespace. -/
def pyStrip (s : List Char) : List Char :=
  (((s.dropWhile pyWs).reverse).dropWhile pyWs).reverse

/-- `s.replace(a, b)` for single characters (`.replace('\\', '/')`). -/
def pyReplace (a b : Char) (s : List Char) : List Char :=
  s.map (fun c => if c = a then b else c)

/-- `s.rstrip('/')`: drop trailing slashes. -/
def pyRstripSlash (s : List Char) : List Char :=
  ((s.reverse).dropWhile (fun c => c = '/')).reverse

/-! ## Character classes of the embedded patterns (Python 2 ASCII semantics) -/

/-- `\w` = `[a-zA-Z0-9_]`. -/
def chWord (c : Char) : Bool :=
  (('a' ≤ c && c ≤ 'z') || ('A' ≤ c && c ≤ 'Z') || ('0' ≤ c && c ≤ '9') || c = '_')

/-- `[\w+-]`. -/
def chWordPM (c : Char) : Bool := chWord c || c = '+' || c = '-'

/-- `[\w.+-]` (first character of `regex_local_ref`). -/
def chLocal1 (c : Char) : Bool := chWord c || c = '.' || c = '+' || c = '-'

/-- `[\w./+-]` (tail characters of `regex_local_ref`). -/
def chLocal2 (c : Char) : Bool := chLocal1 c || c = '/'

/-- `.` matches every character except a newline. -/
def chDot (c : Char) : Bool := c ≠ '\n'

/-- `[^/:]`. -/
def chNoSlashColon (c : Char) : Bool := c ≠ '/' && c ≠ ':'

/-- `[^/]`. -/
def chNoSlash (c : Char) : Bool := c ≠ '/'

/-- `[:/]`. -/
def chColonSlash (c : Char) : Bool := c = ':' || c = '/'

/-- `[\w\-\.]` (host class of `regex_mbed_url`). -/
def chHost (c : Char) : Bool := chWord c || c = '-' || c = '.'

/-- `[\w\-]` (user/repo name class of `regex_mbed_url`). -/
def chWordDash (c : Char) : Bool := chWord c || c = '-'

/-! ## A prioritized backtracking regex matcher

`re.match` returns the first match found by a leftmost backtracking search:
alternatives are tried in written order, greedy quantifiers consume as much
as possible first, lazy quantifiers as little as possible first.  The
matcher below enumerates the candidate `(captures, remaining-input)` pairs
of a pattern in exactly that priority order; the overall match is the first
candidate that lets the whole (end-anchored) pattern succeed. -/

/-- Capture environment: group number to captured character list. -/
abbrev Caps := List (Nat × List Char)

/-- Record group `n` as having captured `v` (overwriting any previous value). -/
def setCap (c : Caps) (n : Nat) (v : List Char) : Caps :=
  (n, v) :: c.filter (fun p => p.1 ≠ n)

/-- Look up the capture of group `n` (`None` when the group did not take part). -/
def getCap (c : Caps) (n : Nat) : Option (List Char) :=
  (c.find? (fun p => p.1 = n)).map (·.2)

/-- All ways a character-class star can split the input, paired with the
number of consumed characters, maximal consumption first (greedy order). -/
def starRestsC (p : Char → Bool) : List Char → List (Nat × List Char)
  | [] => [(0, [])]
  | c :: t =>
    if p c then (starRestsC p t).map (fun kr => (kr.1 + 1, kr.2)) ++ [(0, c :: t)]
    else [(0, c :: t)]

/-- Greedy-order remainders of a character-class star. -/
def starRests (p : Char → Bool) (s : List Char) : List (List Char) :=
  (starRestsC p s).map (·.2)

/-- Remainders of a bounded greedy repetition `p{lo,hi}` in greedy order. -/
def repRests (p : Char → Bool) (lo hi : Nat) (s : List Char) : List (List Char) :=
  ((starRestsC p s).filter (fun kr => lo ≤ kr.1 && kr.1 ≤ hi)).map (·.2)

/-- Abstract syntax of the (small) regex fragment the five patterns use.
Quantifiers only ever apply to single-character classes in these patterns,
which the constructors reflect. -/
inductive RE where
  /-- empty pattern -/
  | eps : RE
  /-- `$` (end anchor) -/
  | eos : RE
  /-- literal string -/
  | lit : List Char → RE
  /-- single character of a class -/
  | cls : (Char → Bool) → RE
  /-- concatenation -/
  | seq : RE → RE → RE
  /-- ordered alternation `a|b` -/
  | alt : RE → RE → RE
  /-- greedy option `a?` -/
  | opt : RE → RE
  /-- greedy star `[c]*` -/
  | starG : (Char → Bool) → RE
  /-- lazy star `[c]*?` -/
  | starL : (Char → Bool) → RE
  /-- greedy plus `[c]+` -/
  | plusG : (Char → Bool) → RE
  /-- lazy plus `[c]+?` -/
  | plusL : (Char → Bool) → RE
  /-- greedy bounded repetition `[c]{lo,hi}` -/
  | repG : (Char → Bool) → Nat → Nat → RE
  /-- capture group `n` -/
  | grp : Nat → RE → RE

/-- Candidate results of matching `re` against `s` under captures `c`, in
backtracking priority order. -/
def reM : RE → Caps → List Char → List (Caps × List Char)
  | .eps, c, s => [(c, s)]
  | .eos, c, s => if s.isEmpty then [(c, s)] else []
  | .lit l, c, s => if l.isPrefixOf s then [(c, s.drop l.length)] else []
  | .cls p, c, s =>
    match s with
    | [] => []
    | ch :: t => if p ch then [(c, t)] else []
  | .seq a b, c, s => (reM a c s).flatMap (fun cs => reM b cs.1 cs.2)
  | .alt a b, c, s => reM a c s ++ reM b c s
  | .opt a, c, s => reM a c s ++ [(c, s)]
  | .starG p, c, s => (starRests p s).map (fun r => (c, r))
  | .starL p, c, s => ((starRests p s).reverse).map (fun r => (c, r))
  | .plusG p, c, s =>
    match s with
    | [] => []
    | ch :: t => if p ch then (starRests p t).map (fun r => (c, r)) else []
  | .plusL p, c, s =>
    match s with
    | [] => []
    | ch :: t => if p ch then ((starRests p t).reverse).map (fun r => (c, r)) else []
  | .repG p lo hi, c, s => (repRests p lo hi s).map (fun r => (c, r))
  | .grp n a, c, s =>
    (reM a c s).map (fun cs => (setCap cs.1 n (s.take (s.length - cs.2.length)), cs.2))

/-- `re.match` of an `^...$`-anchored pattern: the highest-priority full
match, or `None`. -/
def matchFull (re : RE) (s : List Char) : Option Caps :=
  ((reM re [] s).head?).map (·.1)

/-- Build `a|b|c|...` (ordered). -/
def altL (base : RE) : List RE → RE
  | [] => base
  | r :: rs => RE.alt base (altL r rs)

/-- Concatenate a list of patterns. -/
def seqL : List RE → RE
  | [] => RE.eps
  | r :: rs => RE.seq r (seqL rs)

def strLit (s : String) : RE := RE.lit s.toList

/-! ## The five locator patterns of `mbed.py` -/

/-- `regex_local_ref = r'^([\w.+-][\w./+-]*?)/?(?:#(.*))?$'`. -/
def localRE : RE :=
  seqL [RE.grp 1 (RE.seq (RE.cls chLocal1) (RE.starL chLocal2)),
        RE.opt (RE.cls (fun c => c = '/')),
        RE.opt (RE.seq (RE.cls (fun c => c = '#')) (RE.grp 2 (RE.starG chDot))),
        RE.eos]

/-- `regex_url_ref = r'^(.*/([\w+-]+)(?:\.\w+)?)/?(?:#(.*))?$'`. -/
def urlRefRE : RE :=
  seqL [RE.grp 1 (seqL [RE.starG chDot,
                        RE.cls (fun c => c = '/'),
                        RE.grp 2 (RE.plusG chWordPM),
                        RE.opt (RE.seq (RE.cls (fun c => c = '.')) (RE.plusG chWord))]),
        RE.opt (RE.cls (fun c => c = '/')),
        RE.opt (RE.seq (RE.cls (fun c => c = '#')) (RE.grp 3 (RE.starG chDot))),
        RE.eos]

/-- `regex_git_url = r'^(git@|git\://|ssh\://|https?\://)([^/:]+)[:/](.+?)(\.git|\/?)$'`. -/
def gitRE : RE :=
  seqL [RE.grp 1 (altL (strLit "git@")
                       [strLit "git://", strLit "ssh://",
                        seqL [strLit "http", RE.opt (RE.cls (fun c => c = 's')), strLit "://"]]),
        RE.grp 2 (RE.plusG chNoSlashColon),
        RE.cls chColonSlash,
        RE.grp 3 (RE.plusL chDot),
        RE.grp 4 (RE.alt (strLit ".git") (RE.opt (RE.cls (fun c => c = '/')))),
        RE.eos]

/-- `regex_hg_url = r'^(file|ssh|https?)://([^/:]+)/([^/]+)/?([^/]+?)?$'`. -/
def hgRE : RE :=
  seqL [RE.grp 1 (altL (strLit "file")
                       [strLit "ssh",
                        RE.seq (strLit "http") (RE.opt (RE.cls (fun c => c = 's')))]),
        strLit "://",
        RE.grp 2 (RE.plusG chNoSlashColon),
        RE.cls (fun c => c = '/'),
        RE.grp 3 (RE.plusG chNoSlash),
        RE.opt (RE.cls (fun c => c = '/')),
        RE.opt (RE.grp 4 (RE.plusL chNoSlash)),
        RE.eos]

/-- `regex_mbed_url =
r'^(https?)://([\w\-\.]*mbed\.(co\.uk|org|com))/(users|teams)/([\w\-]{1,32})/(repos|code)/([\w\-]+)/?$'`. -/
def mbedRE : RE :=
  seqL [RE.grp 1 (RE.seq (strLit "http") (RE.opt (RE.cls (fun c => c = 's')))),
        strLit "://",
        RE.grp 2 (seqL [RE.starG chHost, strLit "mbed.",
                        RE.grp 3 (altL (strLit "co.uk") [strLit "org", strLit "com"])]),
        strLit "/",
        RE.grp 4 (RE.alt (strLit "users") (strLit "teams")),
        strLit "/",
        RE.grp 5 (RE.repG chWordDash 1 32),
        strLit "/",
        RE.grp 6 (RE.alt (strLit "repos") (strLit "code")),
        strLit "/",
        RE.grp 7 (RE.plusG chWordDash),
        RE.opt (RE.cls (fun c => c = '/')),
        RE.eos]

/-- Capture of group `n` as a `String`, empty when absent (used only where
the Python code accesses a group that is always set on a successful match). -/
def capStr (c : Caps) (n : Nat) : String :=
  String.mk ((getCap c n).getD [])

/-! ## `formaturl(url, format="default")` -/

/-- `formaturl` from `mbed.py`: canonicalize a locator to the requested
transport.  The three grammars are tried in order mbed, git, hg; an
unmatched locator passes through unchanged.  For the mbed grammar only
`http` is distinguished (every other format, `ssh` included, yields
`https`), mirroring the `if format == "http" ... else ...` in the source. -/
def formaturl (url fmt : String) : String :=
  let u := url.toList
  match matchFull mbedRE u with
  | some m =>
    if fmt = "http" then
      "http://" ++ capStr m 2 ++ "/" ++ capStr m 4 ++ "/" ++ capStr m 5 ++ "/" ++
        capStr m 6 ++ "/" ++ capStr m 7
    else
      "https://" ++ capStr m 2 ++ "/" ++ capStr m 4 ++ "/" ++ capStr m 5 ++ "/" ++
        capStr m 6 ++ "/" ++ capStr m 7
  | none =>
    match matchFull gitRE u with
    | some m =>
      if fmt = "ssh" then "ssh://" ++ capStr m 2 ++ "/" ++ capStr m 3 ++ ".git"
      else if fmt = "http" then "http://" ++ capStr m 2 ++ "/" ++ capStr m 3
      else "https://" ++ capStr m 2 ++ "/" ++ capStr m 3
    | none =>
      match matchFull hgRE u with
      | some m =>
        if fmt = "ssh" then "ssh://" ++ capStr m 2 ++ "/" ++ capStr m 3
        else if fmt = "http" then "http://" ++ capStr m 2 ++ "/" ++ capStr m 3
        else "https://" ++ capStr m 2 ++ "/" ++ capStr m 3
      | none => url

/-! ## `Repo.fromurl`, `Repo.fullurl`, `Repo.write` -/

/-- The url/hash/is_local fields `Repo.fromurl` computes (`name` and `path`
are filesystem bookkeeping the claims do not touch and are not modeled).
`None` models the `error('Invalid repository ...')` exit. -/
structure ParsedRef where
  url : String
  hash : Option String
  is_local : Bool
deriving DecidableEq, Repr

/-- `Repo.fromurl`: try `regex_local_ref` first, then `regex_url_ref`
(whose url part is canonicalized through one-argument `formaturl`, i.e.
format `"default"`), on the stripped, backslash-normalized locator. -/
def Repo_fromurl (url : String) : Option ParsedRef :=
  let u := pyReplace '\\' '/' (pyStrip url.toList)
  match matchFull localRE u with
  | some m =>
    some { url := String.mk ((getCap m 1).getD [])
           hash := (getCap m 2).map String.mk
           is_local := true }
  | none =>
    match matchFull urlRefRE u with
    | some m =>
      some { url := formaturl (String.mk ((getCap m 1).getD [])) "default"
             hash := (getCap m 3).map String.mk
             is_local := false }
    | none => none

/-- `Repo.fullurl`: `self.url.rstrip('/') + '/' + ('#'+self.hash if
self.hash else '')`, guarded by `if self.url` (a falsy url yields no
value). An empty-string hash is falsy in Python, hence unpinned. -/
def Repo_fullurl (url : String) (hash : Option String) : Option String :=
  if url ≠ "" then
    some (String.mk (pyRstripSlash url.toList) ++ "/" ++
      (match hash with
       | some h => if h ≠ "" then "#" ++ h else ""
       | none => ""))
  else none

/-- The reference-file content `Repo.write` persists: `self.fullurl + '\n'`. -/
def writeContent (url : String) (hash : Option String) : Option String :=
  (Repo_fullurl url hash).map (· ++ "\n")

/-! ## `Hg.isurl` / `Git.isurl` -/

/-- `Hg.isurl`: the locator must match `regex_url_ref`, and its url part
(group 1) must match `regex_hg_url` or `regex_mbed_url`. -/
def Hg_isurl (url : String) : Bool :=
  let u := pyReplace '\\' '/' (pyStrip url.toList)
  match matchFull urlRefRE u with
  | some m =>
    let g1 := (getCap m 1).getD []
    (matchFull hgRE g1).isSome || (matchFull mbedRE g1).isSome
  | none => false

/-- `Git.isurl`: the locator must match `regex_url_ref`, and its url part
(group 1) must match `regex_git_url` and not `regex_mbed_url`. -/
def Git_isurl (url : String) : Bool :=
  let u := pyReplace '\\' '/' (pyStrip url.toList)
  match matchFull urlRefRE u with
  | some m =>
    let g1 := (getCap m 1).getD []
    (matchFull gitRE g1).isSome && !(matchFull mbedRE g1).isSome
  | none => false

/-! ## `Hg.outgoing` / `Git.outgoing` / `isdetached` -/

/-- Outcome of one `pquery` subprocess call: exit status and captured
stdout.  `pquery` raises `ProcessException(returncode)` exactly when the
status is nonzero. -/
structure ProcOut where
  code : Int
  out : String
deriving DecidableEq, Repr

/-- `Hg.outgoing`: success means outgoing commits exist; a
`ProcessException` with code 1 means none; any other nonzero code is
re-raised. -/
def Hg_outgoing (r : ProcOut) : Except Int Bool :=
  if r.code = 0 then .ok true
  else if r.code = 1 then .ok false
  else .error r.code

/-- `Git.outgoing`: on success `git log origin..` output is truthy iff
nonempty; a `ProcessException` with code 1 yields `True`; any other
nonzero code is re-raised. -/
def Git_outgoing (r : ProcOut) : Except Int Bool :=
  if r.code = 0 then .ok (r.out ≠ "")
  else if r.code = 1 then .ok true
  else .error r.code

/-- `Hg.isdetached`: `return False`, unconditionally. -/
def Hg_isdetached : Unit → Bool := fun _ => false

/-- `Git.isdetached`: the stripped `rev-parse --abbrev-ref HEAD` output
equals `"HEAD"`. -/
def Git_isdetached (branchOut : String) : Bool :=
  String.mk (pyStrip branchOut.toList) = "HEAD"

/-! ## `Repo.can_update` (the safety gate) -/

/-- The three refusal messages of `Repo.can_update` (pairwise distinct
human-actionable strings in the source, parametrized there by name/path),
plus the `"OK"` result. -/
inductive GateMsg where
  /-- "Preserving local library ... use --force switch to remove ..." -/
  | preservingLocal : GateMsg
  /-- "Uncommitted changes ... use --clean switch to discard ..." -/
  | uncommittedChanges : GateMsg
  /-- "Unpublished changes ... use --force to discard ..." -/
  | unpublishedChanges : GateMsg
  /-- the `"OK"` value returned with `True` -/
  | ok : GateMsg
deriving DecidableEq, Repr

/-- `Repo.can_update(clean, force)`. `is_local`/`url` are the repository
fields; `dirty` and `outgoing` are the truthiness of `self.scm.dirty()`
and `self.scm.outgoing()`. -/
def can_update (is_local : Bool) (url : Option String) (dirty outgoing : Bool)
    (clean force : Bool) : Bool × GateMsg :=
  if (is_local || url.isNone) && !force then (false, .preservingLocal)
  else if !clean && dirty then (false, .uncommittedChanges)
  else if !force && outgoing then (false, .unpublishedChanges)
  else (true, .ok)

/-! ## `Program.set_cfg` / `Program.get_cfg` -/

/-- The config-line pattern `^([\w+-]+)\=(.*)?$`. -/
def cfgKeyRE : RE :=
  seqL [RE.grp 1 (RE.plusG chWordPM),
        RE.cls (fun c => c = '='),
        RE.opt (RE.grp 2 (RE.starG chDot)),
        RE.eos]

/-- The key of a config line (group 1), when the line matches. -/
def cfgLineKey (line : String) : Option String :=
  (matchFull cfgKeyRE line.toList).map (fun m => String.mk ((getCap m 1).getD []))

/-- The value of a config line (group 2), when the line matches. -/
def cfgLineVal (line : String) : Option String :=
  (matchFull cfgKeyRE line.toList).bind (fun m => (getCap m 2).map String.mk)

/-- The test `m and m.group(1) == var` applied to one config line. -/
def cfgKeyIs (var line : String) : Bool := cfgLineKey line == some var

/-- The removal loop of `set_cfg` with CPython iterator semantics:
`for line in lines: ... lines.remove(line)` fetches `lines[i]` for
`i = 0, 1, ...` against the current (possibly already shrunk) list, so a
removal shifts the following element into slot `i`, which the iterator
then skips; `remove` deletes the first element equal to the fetched one.
The loop runs while `i` is below the current length; since `i` grows by
one per iteration and the list never grows, the initial length bounds the
iteration count, and it is passed as structural fuel: when the fuel is
exhausted, `i` has provably reached at least the current length, so
returning `lines` coincides with the loop's own exit. -/
def setCfgLoop (var : String) : Nat → Nat → List String → List String
  | 0, _, lines => lines
  | fuel + 1, i, lines =>
    if h : i < lines.length then
      let line := lines.get ⟨i, h⟩
      if cfgKeyIs var line then
        setCfgLoop var fuel (i + 1) (lines.erase line)
      else
        setCfgLoop var fuel (i + 1) lines
    else lines

/-- `Program.set_cfg`: run the removal loop, then append `var=val`.
The file content is modeled as its list of lines (`f.read().splitlines()`
on read, `'\n'.join(lines) + '\n'` on write). -/
def set_cfg (lines : List String) (var val : String) : List String :=
  setCfgLoop var lines.length 0 lines ++ [var ++ "=" ++ val]

/-- `Program.get_cfg`: the value of the first line whose key is `var`,
else the default. -/
def get_cfg (lines : List String) (var : String) (default_val : Option String) :
    Option String :=
  match lines.find? (cfgKeyIs var) with
  | some l => cfgLineVal l
  | none => default_val

/-! ## The `update` traversal

`update` is modeled as a recursion over an abstract tree of repository
states.  Per node the model keeps the results of the backend queries the
code performs (`isdetached`, `is_local`, current hash) and, per library
of that node, the on-disk facts the three passes consult after the
checkout has happened: whether the reference file still exists, whether
the directory exists, whether it is a valid repository, whether its live
remote URL differs from the reference's URL, and the state feeding the
child's `can_update` gate.  `name` stands for the library's (unique)
path.  Filesystem mutations (`rmtree_readonly`, `import_`) and scm calls
are recorded as events. -/

/-- Per-library state examined by the `update` passes. -/
structure UpdLibData where
  name : Nat
  refExists : Bool
  dirExists : Bool
  isRepo : Bool
  urlChanged : Bool
  g_is_local : Bool
  g_url : Option String
  g_dirty : Bool
  g_outgoing : Bool
  hash : Option String
deriving DecidableEq, Repr

/-- A repository node: backend-detachment state, locality, current hash,
and its libraries with their subtrees. -/
inductive UpdNode where
  | mk (detached is_local : Bool) (hash : Option String)
       (libs : List (UpdLibData × UpdNode)) : UpdNode

def UpdNode.detached : UpdNode → Bool
  | .mk d _ _ _ => d

def UpdNode.is_local : UpdNode → Bool
  | .mk _ l _ _ => l

def UpdNode.hash : UpdNode → Option String
  | .mk _ _ h _ => h

def UpdNode.libs : UpdNode → List (UpdLibData × UpdNode)
  | .mk _ _ _ l => l

/-- Python truthiness of an optional string (`None` and `''` are falsy). -/
def strFalsy : Option String → Bool
  | none => true
  | some s => s = ""

/-- Events of the `update` traversal. -/
inductive UEv where
  /-- the top-level `sync()` run when `clean` was requested -/
  | syncTop : UEv
  /-- `repo.scm.update(repo, rev, clean)` followed by `rm_untracked` -/
  | scmUpdate (rev : Option String) (clean : Bool) : UEv
  /-- "Skipping unpublished empty ..." -/
  | skipLocal : UEv
  /-- `rmtree_readonly(lib.path)` in the obsolescence pass -/
  | removeObsolete (name : Nat) : UEv
  /-- gate refused in the obsolescence pass, `--ignore` demoted it -/
  | warnObsolete (name : Nat) : UEv
  /-- `rmtree_readonly(lib.path)` in the drift (changed-URL) pass -/
  | removeChangedUrl (name : Nat) : UEv
  /-- gate refused in the drift pass, `--ignore` demoted it -/
  | warnChangedUrl (name : Nat) : UEv
  /-- `import_(lib.fullurl, lib.path, ...)` in the materialize pass -/
  | importLib (name : Nat) : UEv
  /-- recursive `update(lib.hash, clean, force, ignore, top=False)` -/
  | recurse (name : Nat) : UEv
deriving DecidableEq, Repr

/-- Fatal errors of the `update` traversal. -/
inductive UErr where
  /-- the detached-HEAD `error(...)` at the top-level entry -/
  | detachedHead : UErr
  /-- `error(msg, 1)`: the safety gate refused and `--ignore` was absent -/
  | gate (name : Nat) (msg : GateMsg) : UErr
deriving DecidableEq, Repr

/-- Obsolescence pass: every library whose reference file no longer
exists but whose directory does is removed if `can_update` allows it,
warned about under `--ignore`, and otherwise aborts with the gate's
message.  Events preceding an abort have already happened. -/
def obsPass (clean force ignore : Bool) : List UpdLibData → List UEv × Option UErr
  | [] => ([], none)
  | d :: ds =>
    if !d.refExists && d.dirExists then
      let (gc, msg) := can_update d.g_is_local d.g_url d.g_dirty d.g_outgoing clean force
      if gc then
        let (evs, err) := obsPass clean force ignore ds
        (.removeObsolete d.name :: evs, err)
      else if ignore then
        let (evs, err) := obsPass clean force ignore ds
        (.warnObsolete d.name :: evs, err)
      else ([], some (.gate d.name msg))
    else obsPass clean force ignore ds

/-- Drift pass (post-`repo.sync()`, i.e. over the libraries whose
reference files survived): a valid repository directory whose live URL
differs from the reference is removed under the same gate/ignore policy. -/
def driftPass (clean force ignore : Bool) : List UpdLibData → List UEv × Option UErr
  | [] => ([], none)
  | d :: ds =>
    if d.dirExists && d.isRepo && d.urlChanged then
      let (gc, msg) := can_update d.g_is_local d.g_url d.g_dirty d.g_outgoing clean force
      if gc then
        let (evs, err) := driftPass clean force ignore ds
        (.removeChangedUrl d.name :: evs, err)
      else if ignore then
        let (evs, err) := driftPass clean force ignore ds
        (.warnChangedUrl d.name :: evs, err)
      else ([], some (.gate d.name msg))
    else driftPass clean force ignore ds

/-- Names of the directories the drift pass removes (consulted by the
materialize pass through `os.path.isdir`). -/
def driftRemoved (clean force : Bool) (libs : List UpdLibData) : List Nat :=
  (libs.filter (fun d => d.dirExists && d.isRepo && d.urlChanged &&
    (can_update d.g_is_local d.g_url d.g_dirty d.g_outgoing clean force).1)).map (·.name)

/-- Decidable equality for `Except` results (used to evaluate the models
on concrete inputs). -/
instance {e a : Type} [DecidableEq e] [DecidableEq a] : DecidableEq (Except e a) := fun
  | .ok x, .ok y =>
    if h : x = y then .isTrue (by rw [h]) else .isFalse (by intro hh; cases hh; exact h rfl)
  | .ok _, .error _ => .isFalse (by intro h; cases h)
  | .error _, .ok _ => .isFalse (by intro h; cases h)
  | .error x, .error y =>
    if h : x = y then .isTrue (by rw [h]) else .isFalse (by intro hh; cases hh; exact h rfl)

mutual

/-- One node of `update(rev, clean, force, ignore, top)`:
top-level clean `sync`; detached-HEAD check; scm update (or skip for an
unpublished local repository); obsolescence pass; `repo.sync()` (libraries
whose reference disappeared drop out); drift pass; materialize pass. -/
def updateGo (n : UpdNode) (rev : Option String) (clean force ignore top : Bool) :
    Except UErr (List UEv) :=
  match n with
  | .mk detached is_local hash libs =>
    let pre : List UEv := if top && clean then [.syncTop] else []
    if top && strFalsy rev && detached then .error .detachedHead
    else
      let fetch : List UEv :=
        if is_local && strFalsy hash then [.skipLocal] else [.scmUpdate rev clean]
      let (obsEvs, obsErr) := obsPass clean force ignore (libs.map (·.1))
      match obsErr with
      | some e => .error e
      | none =>
        let survivors := libs.map (·.1) |>.filter (·.refExists)
        let (driftEvs, driftErr) := driftPass clean force ignore survivors
        match driftErr with
        | some e => .error e
        | none =>
          let removed := driftRemoved clean force survivors
          match matPass libs removed clean force ignore with
          | .error e => .error e
          | .ok matEvs => .ok (pre ++ fetch ++ obsEvs ++ driftEvs ++ matEvs)

/-- Materialize pass: for every library whose reference file survived,
fetch it fresh when its directory is (now) missing, else recurse
`update` into it pinned to its hash with `top=False`. -/
def matPass (libs : List (UpdLibData × UpdNode)) (removed : List Nat)
    (clean force ignore : Bool) : Except UErr (List UEv) :=
  match libs with
  | [] => .ok []
  | (d, child) :: ls =>
    if d.refExists then
      if !d.dirExists || d.name ∈ removed then
        match matPass ls removed clean force ignore with
        | .error e => .error e
        | .ok evs => .ok (.importLib d.name :: evs)
      else
        match updateGo child d.hash clean force ignore false with
        | .error e => .error e
        | .ok kid =>
          match matPass ls removed clean force ignore with
          | .error e => .error e
          | .ok evs => .ok (.recurse d.name :: kid ++ evs)
    else matPass ls removed clean force ignore

end

/-! ## The `publish` traversal -/

/-- A repository node for `publish`: `valid` is the `check_repo` outcome
when the node is visited as a child (unused at the root), `is_local`,
`dirty` and `outgoing` are the backend-query results. -/
inductive PTree where
  | mk (id : Nat) (valid is_local dirty outgoing : Bool)
       (children : List PTree) : PTree

def PTree.id : PTree → Nat
  | .mk i _ _ _ _ _ => i

def PTree.valid : PTree → Bool
  | .mk _ v _ _ _ _ => v

def PTree.is_local : PTree → Bool
  | .mk _ _ l _ _ _ => l

def PTree.dirty : PTree → Bool
  | .mk _ _ _ d _ _ => d

def PTree.outgoing : PTree → Bool
  | .mk _ _ _ _ o _ => o

def PTree.children : PTree → List PTree
  | .mk _ _ _ _ _ c => c

/-- Events of the `publish` traversal. -/
inductive PEv where
  /-- entry into `publish(all, top)` at a node (instrumented call record) -/
  | call (id : Nat) (allArg topArg : Bool) : PEv
  /-- the `action("Checking for local modifications...")` printed when `top` -/
  | checking : PEv
  /-- `sync(recursive=False)` after the children -/
  | syncHere (id : Nat) : PEv
  /-- `repo.scm.commit()` after the commit prompt -/
  | commit (id : Nat) : PEv
  /-- `repo.scm.push(repo, all)` -/
  | push (id : Nat) (allArg : Bool) : PEv
deriving DecidableEq, Repr

/-- Fatal errors of the `publish` traversal. -/
inductive PErr where
  /-- `error("... is a local repository ...", 1)`; carries the `top` flag
  that selects the "Program"/"Library" wording -/
  | localRepo (top : Bool) (id : Nat) : PErr
  /-- `check_repo` failed for a child and called `error(..., 1)` -/
  | invalidRepo (id : Nat) : PErr
deriving DecidableEq, Repr

mutual

/-- `publish(all, top)` at one node: refuse if local-only; recurse into
every valid child first — the recursive call in the source is literally
`publish(False, all)`, so the child's `all` is `False` and the child's
`top` is the parent's `all` —; then `sync(recursive=False)`, commit when
dirty, push when outgoing. -/
def publishGo (t : PTree) (all top : Bool) : List PEv × Option PErr :=
  match t with
  | .mk id _ is_local dirty outgoing children =>
    let entry : List PEv := .call id all top :: (if top then [.checking] else [])
    if is_local then (entry, some (.localRepo top id))
    else
      let (kevs, kerr) := publishKids children all
      match kerr with
      | some e => (entry ++ kevs, some e)
      | none =>
        (entry ++ kevs ++ .syncHere id ::
          ((if dirty then [.commit id] else []) ++
           (if outgoing then [.push id all] else [])), none)

/-- The children loop of `publish`: `for lib in repo.libs: if
lib.check_repo(): with cd(lib.path): publish(False, all)`.  An invalid
child's `check_repo` calls `error(..., 1)` and aborts. -/
def publishKids (cs : List PTree) (all : Bool) : List PEv × Option PErr :=
  match cs with
  | [] => ([], none)
  | c :: rest =>
    if c.valid then
      let (evs, err) := publishGo c false all
      match err with
      | some e => (evs, some e)
      | none =>
        let (revs, rerr) := publishKids rest all
        (evs ++ revs, rerr)
    else ([], some (.invalidRepo c.id))

end

/-! ## C1: the safety gate -/

/-- C1: `can_update` allows exactly when (a) the repository has a
configured remote URL and is not local-only, or `force` is set; (b) the
working tree is not dirty, or `clean` was requested; and (c) there are no
outgoing commits, or `force` is set.  Each refusal carries the distinct
reason of the first unmet condition (`clean` discharges only (b), `force`
only (a) and (c)), and the `OK` message accompanies exactly the allowing
results. -/
theorem C1_can_update_gate (is_local : Bool) (url : Option String)
    (dirty outgoing clean force : Bool) :
    ((can_update is_local url dirty outgoing clean force).1 = true ↔
       (((!(is_local || url.isNone)) || force) && ((!dirty) || clean) &&
        ((!outgoing) || force)) = true)
    ∧ ((can_update is_local url dirty outgoing clean force).2 = GateMsg.preservingLocal ↔
       ((!(is_local || url.isNone)) || force) = false)
    ∧ ((can_update is_local url dirty outgoing clean force).2 = GateMsg.uncommittedChanges ↔
       (((!(is_local || url.isNone)) || force) && (!((!dirty) || clean))) = true)
    ∧ ((can_update is_local url dirty outgoing clean force).2 = GateMsg.unpublishedChanges ↔
       ((((!(is_local || url.isNone)) || force) && ((!dirty) || clean)) &&
        (!((!outgoing) || force))) = true)
    ∧ ((can_update is_local url dirty outgoing clean force).2 = GateMsg.ok ↔
       (can_update is_local url dirty outgoing clean force).1 = true)
    ∧ ((can_update is_local url dirty outgoing clean force).1 = false ↔
       (can_update is_local url dirty outgoing clean force).2 ≠ GateMsg.ok) := by
  cases url <;> cases is_local <;> cases dirty <;> cases outgoing <;>
    cases clean <;> cases force <;> simp [can_update]

/-! ## C7: the outgoing-commits exit-status asymmetry -/

/-- C7: when the outgoing query exits with status 1, `Hg.outgoing`
returns `False` while `Git.outgoing` returns `True`; every other nonzero
status is re-raised by both backends instead of yielding a boolean. -/
theorem C7_outgoing_asymmetry (r : ProcOut) :
    (r.code = 1 → Hg_outgoing r = .ok false ∧ Git_outgoing r = .ok true)
    ∧ (r.code ≠ 0 → r.code ≠ 1 →
       Hg_outgoing r = .error r.code ∧ Git_outgoing r = .error r.code) := by
  obtain ⟨c, o⟩ := r
  constructor
  · rintro rfl
    simp [Hg_outgoing, Git_outgoing]
  · intro h0 h1
    simp only at h0 h1
    simp [Hg_outgoing, Git_outgoing, h0, h1]

/-- Witness for C7 at exit statuses 1 and 2. -/
theorem C7_outgoing_asymmetry_witness :
    (Hg_outgoing ⟨1, ""⟩ = .ok false ∧ Git_outgoing ⟨1, ""⟩ = .ok true)
    ∧ (Hg_outgoing ⟨2, ""⟩ = .error 2 ∧ Git_outgoing ⟨2, ""⟩ = .error 2) :=
  ⟨(C7_outgoing_asymmetry ⟨1, ""⟩).1 rfl,
   (C7_outgoing_asymmetry ⟨2, ""⟩).2 (by decide) (by decide)⟩

/-! ## C3: canonicalization is not idempotent -/

/-- C3: `https://h/a.git/` matches the git URL grammar, yet one
`formaturl` pass yields `https://h/a.git` and a second pass strips the
`.git` suffix again, yielding `https://h/a` — re-canonicalizing an
already-canonicalized locator in the same target protocol changes it. -/
theorem C3_formaturl_not_idempotent :
    (matchFull gitRE ("https://h/a.git/".toList)).isSome = true
    ∧ formaturl "https://h/a.git/" "https" = "https://h/a.git"
    ∧ formaturl (formaturl "https://h/a.git/" "https") "https" = "https://h/a"
    ∧ formaturl (formaturl "https://h/a.git/" "https") "https" ≠
        formaturl "https://h/a.git/" "https" :=
  ⟨by decide, by decide, by decide, by decide⟩

/-! ## C2: URL-ownership overlap -/

/-- C2 counterexample: the ordinary remote locator `https://host/path` is
accepted by `Hg.isurl` and by `Git.isurl` simultaneously — the two
ownership grammars overlap on generic `https` URLs. -/
theorem C2_isurl_overlap_counterexample :
    Hg_isurl "https://host/path" = true ∧ Git_isurl "https://host/path" = true :=
  ⟨by decide, by decide⟩

/-- C2 amended: exclusion is guaranteed for the mbed-hosted shape:
whenever the locator's url part (group 1 of `regex_url_ref`) matches
`regex_mbed_url`, `Git.isurl` rejects the locator and `Hg.isurl` accepts
it, so no mbed-hosted locator is claimed by both backends.  (Outside
that shape the two grammars may overlap, as the counterexample shows.) -/
theorem C2_isurl_mbed_exclusion (u : String) (m : Caps)
    (hm : matchFull urlRefRE (pyReplace '\\' '/' (pyStrip u.toList)) = some m)
    (hmbed : (matchFull mbedRE ((getCap m 1).getD [])).isSome = true) :
    Git_isurl u = false ∧ Hg_isurl u = true := by
  constructor
  · simp only [Git_isurl, hm, hmbed]
    simp
  · simp only [Hg_isurl, hm, hmbed]
    simp

/-- Witness for C2's amended theorem at an mbed-hosted locator. -/
theorem C2_isurl_mbed_exclusion_witness :
    Git_isurl "https://mbed.org/users/b/code/l" = false
    ∧ Hg_isurl "https://mbed.org/users/b/code/l" = true :=
  C2_isurl_mbed_exclusion "https://mbed.org/users/b/code/l"
    [(1, "https://mbed.org/users/b/code/l".toList), (2, "l".toList)]
    (by decide) (by decide)

/-! ## C6: the obsolescence pass never removes a referenced library -/

/-- C6: during `update`'s obsolescence pass, a removal event for a
library can only arise from a library whose reference file does not
exist while its directory does; consequently (with distinct library
paths) a library whose reference file is still present is never removed
by this pass, whatever the gate outcome and the clean/force/ignore
flags. -/
theorem C6_obsolete_only_without_ref (clean force ignore : Bool)
    (libs : List UpdLibData) :
    (∀ nm, UEv.removeObsolete nm ∈ (obsPass clean force ignore libs).1 →
       ∃ d ∈ libs, d.name = nm ∧ d.refExists = false ∧ d.dirExists = true)
    ∧ ((libs.map (·.name)).Nodup →
       ∀ d ∈ libs, d.refExists = true →
         UEv.removeObsolete d.name ∉ (obsPass clean force ignore libs).1) := by
  have main : ∀ nm, UEv.removeObsolete nm ∈ (obsPass clean force ignore libs).1 →
      ∃ d ∈ libs, d.name = nm ∧ d.refExists = false ∧ d.dirExists = true := by
    induction libs with
    | nil => intro nm h; simp [obsPass] at h
    | cons d ds ih =>
      intro nm h
      rcases hcu : can_update d.g_is_local d.g_url d.g_dirty d.g_outgoing clean force
        with ⟨gc, msg⟩
      rcases hrec : obsPass clean force ignore ds with ⟨evs, err⟩
      by_cases hcond : (!d.refExists && d.dirExists) = true
      · have hc : d.refExists = false ∧ d.dirExists = true := by
          constructor
          · rcases hb : d.refExists with _ | _
            · rfl
            · rw [hb] at hcond; simp at hcond
          · rcases hb : d.dirExists with _ | _
            · rw [hb] at hcond; simp at hcond
            · rfl
        cases gc
        · rcases hig : ignore with _ | _
          · subst hig
            simp [obsPass, hcond, hcu] at h
          · subst hig
            simp [obsPass, hcond, hcu, hrec] at h
            obtain ⟨d', hd', rest⟩ := ih nm (by rw [hrec]; simpa using h)
            exact ⟨d', List.mem_cons_of_mem _ hd', rest⟩
        · simp [obsPass, hcond, hcu, hrec] at h
          rcases h with h | h
          · exact ⟨d, List.mem_cons_self d ds, h.symm, hc.1, hc.2⟩
          · obtain ⟨d', hd', rest⟩ := ih nm (by rw [hrec]; simpa using h)
            exact ⟨d', List.mem_cons_of_mem _ hd', rest⟩
      · simp only [obsPass, hcond, if_false] at h
        obtain ⟨d', hd', rest⟩ := ih nm (by simpa using h)
        exact ⟨d', List.mem_cons_of_mem _ hd', rest⟩
  refine ⟨main, ?_⟩
  intro hnodup d hd hdref hmem
  obtain ⟨d', hd', hname, href, _⟩ := main d.name hmem
  have hdd : d' = d := List.inj_on_of_nodup_map hnodup hd' hd (by rw [hname])
  rw [hdd, hdref] at href
  exact Bool.noConfusion href

/-- Witness for C6: a concrete pass in which a library is removed, and
the theorem locates it among the unreferenced ones. -/
theorem C6_obsolete_only_without_ref_witness :
    ∃ d ∈ [UpdLibData.mk 1 false true true false false (some "u") false false none],
      d.name = 1 ∧ d.refExists = false ∧ d.dirExists = true :=
  (C6_obsolete_only_without_ref false false false
    [UpdLibData.mk 1 false true true false false (some "u") false false none]).1
    1 (by decide)

/-! ## C9: the detached-HEAD check -/

/-- Every error the obsolescence pass produces is a gate refusal. -/
theorem obsPass_err_gate (clean force ignore : Bool) (libs : List UpdLibData)
    (e : UErr) (h : (obsPass clean force ignore libs).2 = some e) :
    ∃ nm msg, e = UErr.gate nm msg := by
  induction libs with
  | nil => simp [obsPass] at h
  | cons d ds ih =>
    rcases hcu : can_update d.g_is_local d.g_url d.g_dirty d.g_outgoing clean force
      with ⟨gc, msg⟩
    rcases hrec : obsPass clean force ignore ds with ⟨evs, err⟩
    by_cases hcond : (!d.refExists && d.dirExists) = true
    · cases gc
      · rcases hig : ignore with _ | _
        · subst hig
          simp [obsPass, hcond, hcu] at h
          exact ⟨d.name, msg, h.symm⟩
        · subst hig
          simp [obsPass, hcond, hcu, hrec] at h
          exact ih (by rw [hrec]; simpa using h)
      · simp [obsPass, hcond, hcu, hrec] at h
        exact ih (by rw [hrec]; simpa using h)
    · simp only [obsPass, hcond, if_false] at h
      exact ih (by simpa using h)

/-- Every error the drift pass produces is a gate refusal. -/
theorem driftPass_err_gate (clean force ignore : Bool) (libs : List UpdLibData)
    (e : UErr) (h : (driftPass clean force ignore libs).2 = some e) :
    ∃ nm msg, e = UErr.gate nm msg := by
  induction libs with
  | nil => simp [driftPass] at h
  | cons d ds ih =>
    rcases hcu : can_update d.g_is_local d.g_url d.g_dirty d.g_outgoing clean force
      with ⟨gc, msg⟩
    rcases hrec : driftPass clean force ignore ds with ⟨evs, err⟩
    by_cases hcond : (d.dirExists && d.isRepo && d.urlChanged) = true
    · cases gc
      · rcases hig : ignore with _ | _
        · subst hig
          simp [driftPass, hcond, hcu] at h
          exact ⟨d.name, msg, h.symm⟩
        · subst hig
          simp [driftPass, hcond, hcu, hrec] at h
          exact ih (by rw [hrec]; simpa using h)
      · simp [driftPass, hcond, hcu, hrec] at h
        exact ih (by rw [hrec]; simpa using h)
    · simp only [driftPass, hcond, if_false] at h
      exact ih (by simpa using h)

/-- A detached-HEAD error out of the materialize pass can only come from
one of the recursive child updates (which run with `top := false`). -/
theorem matPass_err_detached (libs : List (UpdLibData × UpdNode)) (removed : List Nat)
    (clean force ignore : Bool)
    (h : matPass libs removed clean force ignore = .error .detachedHead) :
    ∃ pr ∈ libs, updateGo pr.2 pr.1.hash clean force ignore false = .error .detachedHead := by
  induction libs with
  | nil => simp [matPass] at h
  | cons pr ls ih =>
    obtain ⟨d, child⟩ := pr
    by_cases href : d.refExists = true
    · by_cases hdir : (!d.dirExists || decide (d.name ∈ removed)) = true
      · rcases hrec : matPass ls removed clean force ignore with e | evs
        · rw [matPass] at h
          simp [href, hdir, hrec] at h
          obtain ⟨pr', hpr', hu⟩ := ih (by rw [hrec, h])
          exact ⟨pr', List.mem_cons_of_mem _ hpr', hu⟩
        · rw [matPass] at h
          simp [href, hdir, hrec] at h
      · rcases hu : updateGo child d.hash clean force ignore false with e | kid
        · rw [matPass] at h
          simp [href, hdir, hu] at h
          exact ⟨(d, child), List.mem_cons_self _ _, by rw [hu, h]⟩
        · rcases hrec : matPass ls removed clean force ignore with e | evs
          · rw [matPass] at h
            simp [href, hdir, hu, hrec] at h
            obtain ⟨pr', hpr', hu'⟩ := ih (by rw [hrec, h])
            exact ⟨pr', List.mem_cons_of_mem _ hpr', hu'⟩
          · rw [matPass] at h
            simp [href, hdir, hu, hrec] at h
    · rw [matPass] at h
      simp [href] at h
      obtain ⟨pr', hpr', hu⟩ := ih h
      exact ⟨pr', List.mem_cons_of_mem _ hpr', hu⟩

/-- If the detached-HEAD condition does not hold at entry and no child
update reports a detached HEAD, the node's `update` does not either: all
remaining errors are gate refusals or child errors. -/
theorem updateGo_pass_not_detached (det loc : Bool) (hsh : Option String)
    (libs : List (UpdLibData × UpdNode)) (rev : Option String)
    (clean force ignore top : Bool)
    (hcond : (top && strFalsy rev && det) = false)
    (hkids : ∀ pr ∈ libs, ∀ rv : Option String,
      updateGo pr.2 rv clean force ignore false ≠ .error .detachedHead) :
    updateGo (.mk det loc hsh libs) rev clean force ignore top ≠ .error .detachedHead := by
  intro h
  rw [updateGo] at h
  simp only [hcond, if_false] at h
  rcases hobs : obsPass clean force ignore (libs.map (·.1)) with ⟨obsEvs, obsErr⟩
  rw [hobs] at h
  rcases obsErr with _ | e
  · rcases hdr : driftPass clean force ignore ((libs.map (·.1)).filter (·.refExists))
      with ⟨dEvs, dErr⟩
    rw [hdr] at h
    rcases dErr with _ | e
    · rcases hmat : matPass libs
          (driftRemoved clean force ((libs.map (·.1)).filter (·.refExists)))
          clean force ignore with e | matEvs
      · rw [hmat] at h
        simp at h
        obtain ⟨pr, hpr, hu⟩ := matPass_err_detached _ _ _ _ _ (by rw [hmat, h])
        exact hkids pr hpr pr.1.hash hu
      · rw [hmat] at h
        simp at h
    · simp at h
      obtain ⟨nm, msg, hgate⟩ := driftPass_err_gate _ _ _ _ _ (by rw [hdr])
      simp [h] at hgate
  · simp at h
    obtain ⟨nm, msg, hgate⟩ := obsPass_err_gate _ _ _ _ _ (by rw [hobs])
    simp [h] at hgate

/-- A non-top-level `update` never reports a detached HEAD: the check is
guarded by `top`, and every recursive call passes `top := false`. -/
theorem updateGo_not_detached_nontop (k : Nat) :
    ∀ n : UpdNode, sizeOf n ≤ k → ∀ (rev : Option String) (clean force ignore : Bool),
      updateGo n rev clean force ignore false ≠ .error .detachedHead := by
  induction k with
  | zero =>
    intro n hn
    exfalso
    cases n with
    | mk det loc hsh libs =>
      simp [UpdNode.mk.sizeOf_spec] at hn
  | succ k ih =>
    intro n hn rev clean force ignore
    cases n with
    | mk det loc hsh libs =>
      apply updateGo_pass_not_detached det loc hsh libs rev clean force ignore false
        (by simp)
      intro pr hpr rv
      have h1 : sizeOf pr < sizeOf libs := List.sizeOf_lt_of_mem hpr
      have h3 : sizeOf libs < sizeOf (UpdNode.mk det loc hsh libs) := by
        simp [UpdNode.mk.sizeOf_spec]
      obtain ⟨d, ch⟩ := pr
      have h2 : sizeOf ch < sizeOf (d, ch) := by
        simp [Prod.mk.sizeOf_spec]
      exact ih ch (by simp at hn ⊢; omega) rv clean force ignore

/-- C9: `update` raises the detached-HEAD error exactly when the
invocation is top-level, no explicit revision was requested — the
source's `not rev` is Python falsiness, so both an absent revision and
the empty-string revision count — and the backend's `isdetached`
reported true; `Hg.isdetached` returns `False` on every call, so a
repository whose detachment query is the hg backend's can never trigger
the error. -/
theorem C9_detached_head (n : UpdNode) (rev : Option String)
    (clean force ignore top : Bool) :
    (updateGo n rev clean force ignore top = .error .detachedHead ↔
       (top = true ∧ (rev = none ∨ rev = some "") ∧ n.detached = true))
    ∧ Hg_isdetached () = false
    ∧ (n.detached = Hg_isdetached () →
       updateGo n rev clean force ignore top ≠ .error .detachedHead) := by
  have hiff : updateGo n rev clean force ignore top = .error .detachedHead ↔
      (top = true ∧ (rev = none ∨ rev = some "") ∧ n.detached = true) := by
    cases n with
    | mk det loc hsh libs =>
      constructor
      · intro h
        by_cases hcond : (top && strFalsy rev && det) = true
        · simp only [Bool.and_eq_true] at hcond
          obtain ⟨⟨h1, h2⟩, h3⟩ := hcond
          refine ⟨h1, ?_, by simp [UpdNode.detached, h3]⟩
          rcases hb : rev with _ | r
          · exact Or.inl rfl
          · rw [hb] at h2
            simp [strFalsy] at h2
            rw [h2]
            exact Or.inr rfl
        · exfalso
          refine updateGo_pass_not_detached det loc hsh libs rev clean force ignore top
            (by simpa using hcond) ?_ h
          intro pr hpr rv
          exact updateGo_not_detached_nontop (sizeOf pr.2) pr.2 le_rfl rv clean force ignore
      · rintro ⟨ht, hrev, hdet⟩
        subst ht
        have hd : det = true := by simpa [UpdNode.detached] using hdet
        have hf : strFalsy rev = true := by
          rcases hrev with rfl | rfl
          · rfl
          · rfl
        rw [updateGo]
        simp [hd, hf]
  refine ⟨hiff, rfl, fun hd h => ?_⟩
  have := (hiff.mp h).2.2
  rw [hd] at this
  exact Bool.noConfusion this

/-- Witness for C9: a concrete detached top-level update errors out both
with no requested revision and with the empty-string revision, and
`Hg.isdetached` is `False`. -/
theorem C9_detached_head_witness :
    updateGo (.mk true false none []) none false false false true = .error .detachedHead
    ∧ updateGo (.mk true false none []) (some "") false false false true =
        .error .detachedHead
    ∧ Hg_isdetached () = false :=
  ⟨(C9_detached_head (.mk true false none []) none false false false true).1.mpr
     ⟨rfl, Or.inl rfl, rfl⟩,
   (C9_detached_head (.mk true false none []) (some "") false false false true).1.mpr
     ⟨rfl, Or.inr rfl, rfl⟩,
   (C9_detached_head (.mk true false none []) none false false false true).2.1⟩

/-! ## C8 / C10: the publish traversal -/

/-- Generic list helper: the head of a list is a member. -/
theorem head?_some_mem {α : Type} {l : List α} {x : α} (h : l.head? = some x) :
    x ∈ l := by
  cases l with
  | nil => simp at h
  | cons a t =>
    simp at h
    subst h
    exact List.mem_cons_self _ _

/-- Every `publish` trace begins with the instrumented call record of the
node itself. -/
theorem publishGo_head (t : PTree) (all top : Bool) :
    (publishGo t all top).1.head? = some (PEv.call t.id all top) := by
  cases t with
  | mk i v l d o cs =>
    rw [publishGo]
    rcases hk : publishKids cs all with ⟨kevs, kerr⟩
    cases l <;> cases kerr <;> simp [PTree.id]

/-- Every event of the children loop belongs to the trace of one child's
`publish(False, all)` call. -/
theorem publishKids_mem (cs : List PTree) (al : Bool) (e : PEv)
    (h : e ∈ (publishKids cs al).1) :
    ∃ c ∈ cs, e ∈ (publishGo c false al).1 := by
  induction cs with
  | nil => simp [publishKids] at h
  | cons c rest ih =>
    rw [publishKids] at h
    by_cases hv : c.valid = true
    · rcases hg : publishGo c false al with ⟨evs, err⟩
      cases err
      · rcases hr : publishKids rest al with ⟨revs, rerr⟩
        simp [hv, hg, hr] at h
        rcases h with h | h
        · exact ⟨c, List.mem_cons_self _ _, by rw [hg]; exact h⟩
        · obtain ⟨c', hc', he⟩ := ih (by rw [hr]; exact h)
          exact ⟨c', List.mem_cons_of_mem _ hc', he⟩
      · simp [hv, hg] at h
        exact ⟨c, List.mem_cons_self _ _, by rw [hg]; exact h⟩
    · simp [hv] at h
  
/-- When the children loop succeeds, every child was valid, its own
publish succeeded, and its whole trace is contained (as a sublist) in
the loop's trace. -/
theorem publishKids_success (cs : List PTree) (al : Bool)
    (h : (publishKids cs al).2 = none) :
    ∀ c ∈ cs, c.valid = true ∧ (publishGo c false al).2 = none ∧
      List.Sublist (publishGo c false al).1 (publishKids cs al).1 := by
  induction cs with
  | nil => intro c hc; simp at hc
  | cons c0 rest ih =>
    intro c hc
    rw [publishKids] at h ⊢
    by_cases hv : c0.valid = true
    · rcases hg : publishGo c0 false al with ⟨evs, err⟩
      cases err
      · rcases hr : publishKids rest al with ⟨revs, rerr⟩
        simp [hv, hg, hr] at h ⊢
        rcases List.mem_cons.mp hc with hc | hc
        · subst hc
          exact ⟨hv, by rw [hg], by rw [hg]; exact List.sublist_append_left evs revs⟩
        · obtain ⟨h1, h2, h3⟩ := ih (by rw [hr]; simpa using h) c hc
          refine ⟨h1, h2, ?_⟩
          have h3' : (publishGo c false al).1.Sublist revs := by rw [hr] at h3; exact h3
          exact h3'.trans (List.sublist_append_right evs revs)
      · simp [hv, hg] at h
    · simp [hv] at h

/-- Call-argument shape of every instrumented call in a `publish` trace:
the root's own record carries `(all, top)`; every other call record
carries `all = False` (its `top` is its parent's `all`, hence the
parent's `all` at depth one and `False` deeper). -/
theorem publish_call_shape (k : Nat) :
    ∀ t : PTree, sizeOf t ≤ k → ∀ (al tp : Bool) (n : Nat) (a b : Bool),
      PEv.call n a b ∈ (publishGo t al tp).1 →
      (n = t.id ∧ a = al ∧ b = tp) ∨ (a = false ∧ (b = al ∨ b = false)) := by
  induction k with
  | zero =>
    intro t ht
    exfalso
    cases t with
    | mk i v l d o cs => simp [PTree.mk.sizeOf_spec] at ht
  | succ k ih =>
    intro t ht al tp n a b hmem
    cases t with
    | mk i v l d o cs =>
      have hkid : ∀ e ∈ (publishKids cs al).1,
          e = PEv.call n a b → (a = false ∧ (b = al ∨ b = false)) := by
        intro e he heq
        subst heq
        obtain ⟨c, hc, hce⟩ := publishKids_mem cs al _ he
        have h1 : sizeOf c < sizeOf cs := List.sizeOf_lt_of_mem hc
        have h2 : sizeOf cs < sizeOf (PTree.mk i v l d o cs) := by
          simp [PTree.mk.sizeOf_spec]
        rcases ih c (by omega) false al n a b hce with ⟨_, ha, hb⟩ | ⟨ha, hb⟩
        · exact ⟨ha, Or.inl hb⟩
        · exact ⟨ha, Or.inr (hb.elim id id)⟩
      rw [publishGo] at hmem
      rcases hk : publishKids cs al with ⟨kevs, kerr⟩
      rw [hk] at hmem
      have hkevs : PEv.call n a b ∈ kevs → a = false ∧ (b = al ∨ b = false) :=
        fun hx => hkid _ (by rw [hk]; exact hx) rfl
      cases l <;> cases kerr <;> cases tp <;> cases d <;> cases o <;>
        simp only [PTree.id] <;> simp at hmem <;>
        first
          | exact Or.inl hmem
          | exact Or.inr (hkevs hmem)
          | (rcases hmem with h1 | h2
             · exact Or.inl h1
             · exact Or.inr (hkevs h2))

/-- C8: `publish` fails with a hard error when the current repository is
local-only; otherwise, on success, every child was a valid library whose
entire (recursive, depth-first) publication trace precedes the current
node's re-sync, and the node commits exactly when its working tree is
dirty and pushes exactly when it has outgoing commits. -/
theorem C8_publish (t : PTree) (all top : Bool) :
    (t.is_local = true →
       publishGo t all top =
         (PEv.call t.id all top :: (if top then [PEv.checking] else []),
          some (.localRepo top t.id)))
    ∧ (t.is_local = false → (publishGo t all top).2 = none →
       ∃ pre,
         (publishGo t all top).1 =
           pre ++ PEv.syncHere t.id ::
             ((if t.dirty then [PEv.commit t.id] else []) ++
              (if t.outgoing then [PEv.push t.id all] else []))
         ∧ ∀ c ∈ t.children, c.valid = true ∧ (publishGo c false all).2 = none ∧
             List.Sublist (publishGo c false all).1 pre) := by
  cases t with
  | mk i v l d o cs =>
    constructor
    · intro hl
      have hl' : l = true := by simpa [PTree.is_local] using hl
      subst hl'
      rw [publishGo]
      simp [PTree.id]
    · intro hl hok
      have hl' : l = false := by simpa [PTree.is_local] using hl
      subst hl'
      rcases hk : publishKids cs all with ⟨kevs, kerr⟩
      rw [publishGo] at hok ⊢
      rw [hk] at hok ⊢
      cases kerr
      · refine ⟨(PEv.call i all top :: (if top then [PEv.checking] else [])) ++ kevs, ?_, ?_⟩
        · simp [PTree.id, PTree.dirty, PTree.outgoing, List.append_assoc]
        · intro c hc
          obtain ⟨h1, h2, h3⟩ := publishKids_success cs all (by rw [hk]) c
            (by simpa [PTree.children] using hc)
          refine ⟨h1, h2, ?_⟩
          have h3' : List.Sublist (publishGo c false all).1 kevs := by
            rw [hk] at h3; exact h3
          exact h3'.trans (List.sublist_append_right _ _)
      · simp at hok

/-- Witness for C8: a local-only node errors out; a remote-backed dirty
node with outgoing commits and one valid clean child succeeds with the
stated trace decomposition. -/
theorem C8_publish_witness :
    publishGo (.mk 5 true true false false []) true true =
      ([PEv.call 5 true true, PEv.checking], some (.localRepo true 5))
    ∧ ∃ pre,
        (publishGo (.mk 0 true false true true [.mk 1 true false false false []]) false true).1 =
          pre ++ PEv.syncHere 0 :: ([PEv.commit 0] ++ [PEv.push 0 false])
        ∧ ∀ c ∈ [PTree.mk 1 true false false false []],
            c.valid = true ∧ (publishGo c false false).2 = none ∧
              List.Sublist (publishGo c false false).1 pre :=
  ⟨(C8_publish (.mk 5 true true false false []) true true).1 rfl,
   (C8_publish (.mk 0 true false true true [.mk 1 true false false false []]) false true).2
     rfl (by decide)⟩

/-- C10: every instrumented call record in a `publish` trace other than
the root's own carries `all = False` — the recursive invocation in the
source is `publish(False, all)` — and on success each direct child is
invoked precisely with `all = False` and `top =` the parent's `all`. -/
theorem C10_publish_child_args (t : PTree) (all top : Bool) :
    (∀ (n : Nat) (a b : Bool), PEv.call n a b ∈ (publishGo t all top).1 →
       (n = t.id ∧ a = all ∧ b = top) ∨ (a = false ∧ (b = all ∨ b = false)))
    ∧ ((publishGo t all top).2 = none → t.is_local = false →
       ∀ c ∈ t.children, PEv.call c.id false all ∈ (publishGo t all top).1) := by
  constructor
  · intro n a b hmem
    exact publish_call_shape (sizeOf t) t le_rfl all top n a b hmem
  · intro hok hl c hc
    cases t with
    | mk i v l d o cs =>
      have hl' : l = false := by simpa [PTree.is_local] using hl
      subst hl'
      rcases hk : publishKids cs all with ⟨kevs, kerr⟩
      rw [publishGo] at hok ⊢
      rw [hk] at hok ⊢
      cases kerr
      · obtain ⟨_, _, hsub⟩ := publishKids_success cs all (by rw [hk]) c
          (by simpa [PTree.children] using hc)
        have hcall : PEv.call c.id false all ∈ (publishGo c false all).1 :=
          head?_some_mem (publishGo_head c false all)
        have hmem2 : PEv.call c.id false all ∈ kevs := by
          rw [hk] at hsub
          exact hsub.subset hcall
        simp [hmem2]
      · simp at hok

/-- Witness for C10: with `--all` requested at the root, the direct
child's call record carries `all = False` and `top = True` (the parent's
`all`). -/
theorem C10_publish_child_args_witness :
    PEv.call 1 false true ∈
      (publishGo (.mk 0 true false false false [.mk 1 true false false false []]) true true).1 :=
  (C10_publish_child_args (.mk 0 true false false false [.mk 1 true false false false []])
      true true).2 (by decide) rfl (.mk 1 true false false false [])
    (by simp [PTree.children])

/-! ## Matcher lemmas

First-result lemmas compute the head of the candidate list (the match
`re.match` returns) compositionally; membership lemmas decompose an
arbitrary candidate. -/

/-- A list with head `x` is `x` followed by something. -/
theorem head?_some_ex {α : Type} {l : List α} {x : α} (h : l.head? = some x) :
    ∃ t, l = x :: t := by
  cases l with
  | nil => simp at h
  | cons a t =>
    simp at h
    exact ⟨t, by rw [h]⟩

/-- Sequencing: if `a`'s best candidate lets `b` produce a best
candidate, that is the sequence's best candidate. -/
theorem reM_seq_first {a b : RE} {c : Caps} {s : List Char} {r1 r2 : Caps × List Char}
    (h1 : (reM a c s).head? = some r1)
    (h2 : (reM b r1.1 r1.2).head? = some r2) :
    (reM (RE.seq a b) c s).head? = some r2 := by
  obtain ⟨t1, ht1⟩ := head?_some_ex h1
  obtain ⟨t2, ht2⟩ := head?_some_ex h2
  simp [reM, ht1, ht2]

/-- A failing left factor kills the sequence. -/
theorem reM_seq_nil {a b : RE} {c : Caps} {s : List Char}
    (h : reM a c s = []) : reM (RE.seq a b) c s = [] := by
  simp [reM, h]

theorem reM_grp_first {n : Nat} {a : RE} {c : Caps} {s : List Char} {r : Caps × List Char}
    (h : (reM a c s).head? = some r) :
    (reM (RE.grp n a) c s).head? =
      some (setCap r.1 n (s.take (s.length - r.2.length)), r.2) := by
  obtain ⟨t, ht⟩ := head?_some_ex h
  simp [reM, ht]

theorem reM_grp_nil {n : Nat} {a : RE} {c : Caps} {s : List Char}
    (h : reM a c s = []) : reM (RE.grp n a) c s = [] := by
  simp [reM, h]

/-- Greedy option: taking the branch wins when it matches at all. -/
theorem reM_opt_first {a : RE} {c : Caps} {s : List Char} {r : Caps × List Char}
    (h : (reM a c s).head? = some r) : (reM (RE.opt a) c s).head? = some r := by
  obtain ⟨t, ht⟩ := head?_some_ex h
  simp [reM, ht]

/-- Greedy option: an unmatchable branch is skipped. -/
theorem reM_opt_skip {a : RE} {c : Caps} {s : List Char}
    (h : reM a c s = []) : (reM (RE.opt a) c s).head? = some (c, s) := by
  simp [reM, h]

theorem reM_alt_first {a b : RE} {c : Caps} {s : List Char} {r : Caps × List Char}
    (h : (reM a c s).head? = some r) : (reM (RE.alt a b) c s).head? = some r := by
  obtain ⟨t, ht⟩ := head?_some_ex h
  simp [reM, ht]

theorem reM_alt_second {a b : RE} {c : Caps} {s : List Char}
    (h : reM a c s = []) : (reM (RE.alt a b) c s).head? = (reM b c s).head? := by
  simp [reM, h]

theorem reM_lit_first {l : List Char} {c : Caps} {s : List Char}
    (h : l.isPrefixOf s = true) :
    (reM (RE.lit l) c s).head? = some (c, s.drop l.length) := by
  simp [reM, h]

theorem reM_cls_first {p : Char → Bool} {c : Caps} {ch : Char} {t : List Char}
    (h : p ch = true) : (reM (RE.cls p) c (ch :: t)).head? = some (c, t) := by
  simp [reM, h]

theorem reM_cls_nil_neg {p : Char → Bool} {c : Caps} {ch : Char} {t : List Char}
    (h : p ch = false) : reM (RE.cls p) c (ch :: t) = [] := by
  simp [reM, h]

theorem reM_cls_nil_empty {p : Char → Bool} {c : Caps} : reM (RE.cls p) c [] = [] := rfl

theorem reM_eos_first {c : Caps} : (reM RE.eos c []).head? = some (c, []) := rfl

theorem reM_eps_first {c : Caps} {s : List Char} : (reM RE.eps c s).head? = some (c, s) := rfl

/-- Unfolding of `starRests` on a class character. -/
theorem starRests_cons_pos {p : Char → Bool} {c : Char} {t : List Char}
    (h : p c = true) : starRests p (c :: t) = starRests p t ++ [c :: t] := by
  simp [starRests, starRestsC, h, Function.comp]

theorem starRests_cons_neg {p : Char → Bool} {c : Char} {t : List Char}
    (h : p c = false) : starRests p (c :: t) = [c :: t] := by
  simp [starRests, starRestsC, h]

theorem starRests_ne_nil (p : Char → Bool) (s : List Char) : starRests p s ≠ [] := by
  cases s with
  | nil => simp [starRests, starRestsC]
  | cons c t =>
    rcases h : p c with _ | _
    · simp [starRests_cons_neg h]
    · simp [starRests_cons_pos h]

/-- Greedy star: with an all-class prefix and a stopping suffix, the best
candidate consumes exactly the prefix. -/
theorem starRests_first {p : Char → Bool} {A t : List Char}
    (hA : ∀ a ∈ A, p a = true)
    (ht : ∀ ch, t.head? = some ch → p ch = false) :
    (starRests p (A ++ t)).head? = some t := by
  induction A with
  | nil =>
    cases t with
    | nil => rfl
    | cons c t' => simp [starRests_cons_neg (ht c rfl)]
  | cons a A' ih =>
    have ha : p a = true := hA a (List.mem_cons_self _ _)
    rw [List.cons_append, starRests_cons_pos ha]
    have ih' := ih (fun x hx => hA x (List.mem_cons_of_mem _ hx))
    obtain ⟨tl, htl⟩ := head?_some_ex ih'
    simp [htl]

theorem reM_starG_first {p : Char → Bool} {c : Caps} {A t : List Char}
    (hA : ∀ a ∈ A, p a = true)
    (ht : ∀ ch, t.head? = some ch → p ch = false) :
    (reM (RE.starG p) c (A ++ t)).head? = some (c, t) := by
  obtain ⟨tl, htl⟩ := head?_some_ex (starRests_first hA ht)
  simp [reM, htl]

theorem reM_plusG_first {p : Char → Bool} {c : Caps} {a0 : Char} {A t : List Char}
    (h0 : p a0 = true) (hA : ∀ a ∈ A, p a = true)
    (ht : ∀ ch, t.head? = some ch → p ch = false) :
    (reM (RE.plusG p) c (a0 :: (A ++ t))).head? = some (c, t) := by
  obtain ⟨tl, htl⟩ := head?_some_ex (starRests_first hA ht)
  simp [reM, h0, htl]

theorem reM_plusG_nil_neg {p : Char → Bool} {c : Caps} {ch : Char} {t : List Char}
    (h : p ch = false) : reM (RE.plusG p) c (ch :: t) = [] := by
  simp [reM, h]

theorem reM_plusG_nil_empty {p : Char → Bool} {c : Caps} : reM (RE.plusG p) c [] = [] := rfl

/-- Lazy star: the best candidate consumes nothing. -/
theorem reM_starL_first {p : Char → Bool} {c : Caps} {s : List Char} :
    (reM (RE.starL p) c s).head? = some (c, s) := by
  have : (starRests p s).getLast? = some s := by
    induction s with
    | nil => rfl
    | cons c0 t ih =>
      rcases h : p c0 with _ | _
      · simp [starRests_cons_neg h]
      · simp [starRests_cons_pos h]
  simp [reM, List.head?_reverse, this]

/-- Every star candidate splits the input at an all-class prefix. -/
theorem mem_starRests {p : Char → Bool} {s r : List Char} (h : r ∈ starRests p s) :
    ∃ pre, s = pre ++ r ∧ ∀ a ∈ pre, p a = true := by
  induction s with
  | nil =>
    simp [starRests, starRestsC] at h
    exact ⟨[], by simp [h]⟩
  | cons c t ih =>
    rcases hc : p c with _ | _
    · rw [starRests_cons_neg hc] at h
      simp at h
      exact ⟨[], by simp [h]⟩
    · rw [starRests_cons_pos hc] at h
      rcases List.mem_append.mp h with h' | h'
      · obtain ⟨pre, hpre, hall⟩ := ih h'
        refine ⟨c :: pre, by simp [hpre], ?_⟩
        intro a ha
        rcases List.mem_cons.mp ha with rfl | ha
        · exact hc
        · exact hall a ha
      · simp at h'
        exact ⟨[], by simp [h']⟩

/-- The least-priority star candidate is the whole input; all others
consume a nonempty all-class prefix. -/
theorem starRests_decomp (p : Char → Bool) (t : List Char) :
    ∃ L1, starRests p t = L1 ++ [t] ∧
      ∀ r ∈ L1, ∃ pre, pre ≠ [] ∧ t = pre ++ r ∧ ∀ a ∈ pre, p a = true := by
  induction t with
  | nil => exact ⟨[], rfl, by simp⟩
  | cons c t' ih =>
    rcases hc : p c with _ | _
    · exact ⟨[], starRests_cons_neg hc, by simp⟩
    · obtain ⟨L1', hL1', hL1'p⟩ := ih
      refine ⟨L1' ++ [t'], by rw [starRests_cons_pos hc, hL1', List.append_assoc], ?_⟩
      intro r hr
      rcases List.mem_append.mp hr with hr | hr
      · obtain ⟨pre, hne, hsplit, hall⟩ := hL1'p r hr
        refine ⟨c :: pre, by simp, by simp [hsplit], ?_⟩
        intro a ha
        rcases List.mem_cons.mp ha with rfl | ha
        · exact hc
        · exact hall a ha
      · simp at hr
        subst hr
        exact ⟨[c], by simp, rfl, by simp [hc]⟩

/-- Prepending an all-class prefix only appends lower-priority star
candidates. -/
theorem starRests_append_all {p : Char → Bool} {A t : List Char}
    (hA : ∀ a ∈ A, p a = true) :
    ∃ L2, starRests p (A ++ t) = starRests p t ++ L2 := by
  induction A with
  | nil => exact ⟨[], by simp⟩
  | cons a A' ih =>
    have ha : p a = true := hA a (List.mem_cons_self _ _)
    obtain ⟨L2', hL2'⟩ := ih (fun x hx => hA x (List.mem_cons_of_mem _ hx))
    exact ⟨L2' ++ [a :: (A' ++ t)], by
      rw [List.cons_append, starRests_cons_pos ha, hL2', List.append_assoc]⟩

/-- The decisive lemma for the greedy `.*` prefix of `regex_url_ref`:
if the continuation fails on every strict suffix of `t` and succeeds on
`t` itself, then on `A ++ t` (with `A` all-class) the sequence's best
candidate is the continuation's best candidate at `t`. -/
theorem reM_seq_starG_mid {p : Char → Bool} {b : RE} {c : Caps} {A t : List Char}
    {res : Caps × List Char}
    (hA : ∀ a ∈ A, p a = true)
    (hfail : ∀ pre r, t = pre ++ r → pre ≠ [] → reM b c r = [])
    (hres : (reM b c t).head? = some res) :
    (reM (RE.seq (RE.starG p) b) c (A ++ t)).head? = some res := by
  obtain ⟨L2, hL2⟩ := starRests_append_all (t := t) hA
  obtain ⟨L1, hL1, hL1p⟩ := starRests_decomp p t
  have hexp : reM (RE.seq (RE.starG p) b) c (A ++ t) =
      (starRests p (A ++ t)).flatMap (fun r => reM b c r) := by
    simp [reM, List.flatMap_map, Function.comp]
  rw [hexp, hL2, hL1]
  have h1 : L1.flatMap (fun r => reM b c r) = [] := by
    rw [List.flatMap_eq_nil_iff]
    intro r hr
    obtain ⟨pre, hne, hsplit, _⟩ := hL1p r hr
    exact hfail pre r hsplit hne
  obtain ⟨tt, htt⟩ := head?_some_ex hres
  simp [List.flatMap_append, h1, htt]

/-! ## C5: the config store -/

/-- A well-formed key/value line matches the config pattern with the key
as group 1 and the value as group 2. -/
theorem cfg_line_match (k0 : Char) (kt vl : List Char)
    (hk : ∀ c ∈ k0 :: kt, chWordPM c = true) (hv : ∀ c ∈ vl, c ≠ '\n') :
    matchFull cfgKeyRE (k0 :: (kt ++ '=' :: vl)) = some [(2, vl), (1, k0 :: kt)] := by
  have h0 : chWordPM k0 = true := hk k0 (List.mem_cons_self _ _)
  have hkt : ∀ c ∈ kt, chWordPM c = true := fun c hc => hk c (List.mem_cons_of_mem _ hc)
  have hplus : (reM (RE.plusG chWordPM) [] (k0 :: (kt ++ '=' :: vl))).head? =
      some ([], '=' :: vl) :=
    reM_plusG_first h0 hkt (fun ch hh => by
      simp at hh
      rw [← hh]
      decide)
  have hgrp1 : (reM (RE.grp 1 (RE.plusG chWordPM)) [] (k0 :: (kt ++ '=' :: vl))).head? =
      some ([(1, k0 :: kt)], '=' :: vl) := by
    have h := reM_grp_first (n := 1) hplus
    have harith : kt.length + (vl.length + 1) + 1 - (vl.length + 1) = kt.length + 1 := by
      omega
    rw [h]
    simp only [setCap, List.filter_nil]
    simp only [List.length_cons, List.length_append]
    rw [harith, List.take_succ_cons, List.take_left]
  have hcls : (reM (RE.cls (fun c => c = '=')) [(1, k0 :: kt)] ('=' :: vl)).head? =
      some ([(1, k0 :: kt)], vl) :=
    reM_cls_first rfl
  have hstar : (reM (RE.starG chDot) [(1, k0 :: kt)] vl).head? =
      some ([(1, k0 :: kt)], []) := by
    have h := reM_starG_first (c := [(1, k0 :: kt)]) (A := vl) (t := [])
      (fun a ha => decide_eq_true (hv a ha))
      (fun ch hh => by simp at hh)
    rw [List.append_nil] at h
    exact h
  have hgrp2 : (reM (RE.grp 2 (RE.starG chDot)) [(1, k0 :: kt)] vl).head? =
      some ([(2, vl), (1, k0 :: kt)], []) := by
    have h := reM_grp_first (n := 2) hstar
    rw [h]
    simp [setCap]
  have htail2 : (reM (RE.seq RE.eos RE.eps) [(2, vl), (1, k0 :: kt)] ([] : List Char)).head? =
      some ([(2, vl), (1, k0 :: kt)], []) :=
    reM_seq_first reM_eos_first reM_eps_first
  have htail1 : (reM (RE.seq (RE.opt (RE.grp 2 (RE.starG chDot))) (RE.seq RE.eos RE.eps))
      [(1, k0 :: kt)] vl).head? = some ([(2, vl), (1, k0 :: kt)], []) :=
    reM_seq_first (reM_opt_first hgrp2) htail2
  have htail0 : (reM (RE.seq (RE.cls (fun c => c = '='))
      (RE.seq (RE.opt (RE.grp 2 (RE.starG chDot))) (RE.seq RE.eos RE.eps)))
      [(1, k0 :: kt)] ('=' :: vl)).head? = some ([(2, vl), (1, k0 :: kt)], []) :=
    reM_seq_first hcls htail1
  have hfull : (reM cfgKeyRE [] (k0 :: (kt ++ '=' :: vl))).head? =
      some ([(2, vl), (1, k0 :: kt)], []) := by
    show (reM (RE.seq (RE.grp 1 (RE.plusG chWordPM)) _) [] _).head? = _
    exact reM_seq_first hgrp1 htail0
  rw [matchFull, hfull]
  rfl

/-- The appended `var=val` line is recognized: its key is `var` and its
value is `val`. -/
theorem cfgKeyIs_append (k v : String) (hk0 : k.toList ≠ [])
    (hk : ∀ c ∈ k.toList, chWordPM c = true) (hv : ∀ c ∈ v.toList, c ≠ '\n') :
    cfgKeyIs k (k ++ "=" ++ v) = true ∧ cfgLineVal (k ++ "=" ++ v) = some v := by
  have hl : (k ++ "=" ++ v).toList = k.toList ++ '=' :: v.toList := by
    show (k ++ "=" ++ v).data = k.data ++ '=' :: v.data
    rw [String.data_append, String.data_append, List.append_assoc]
    rfl
  obtain ⟨k0, kt, hkeq⟩ := List.exists_cons_of_ne_nil hk0
  have hmatch : matchFull cfgKeyRE ((k ++ "=" ++ v).toList) =
      some [(2, v.toList), (1, k.toList)] := by
    rw [hl, hkeq, List.cons_append]
    rw [hkeq] at hk
    exact cfg_line_match k0 kt v.toList hk hv
  constructor
  · simp only [cfgKeyIs, cfgLineKey]
    rw [hmatch]
    show (some k == some k) = true
    simp
  · simp only [cfgLineVal]
    rw [hmatch]
    rfl

/-- The removal loop leaves a list without remaining matches untouched. -/
theorem setCfgLoop_id (var : String) (fuel : Nat) :
    ∀ (i : Nat) (lines : List String),
      (lines.drop i).countP (cfgKeyIs var) = 0 →
      setCfgLoop var fuel i lines = lines := by
  induction fuel with
  | zero => intro i lines _; rfl
  | succ fuel ih =>
    intro i lines h
    rw [setCfgLoop]
    by_cases hi : i < lines.length
    · have hdrop : lines.drop i = lines.get ⟨i, hi⟩ :: lines.drop (i + 1) := by
        rw [List.drop_eq_getElem_cons hi]
        rfl
      rw [hdrop, List.countP_cons] at h
      have hx : cfgKeyIs var (lines.get ⟨i, hi⟩) = false := by
        rcases hb : cfgKeyIs var (lines.get ⟨i, hi⟩) with _ | _
        · rfl
        · rw [hb] at h
          simp at h
      rw [hx] at h
      simp only [Bool.false_eq_true, if_false, Nat.add_zero] at h
      simp only [hi, dif_pos, hx, if_false, Bool.false_eq_true, if_neg]
      exact ih (i + 1) lines h
    · simp [hi]

/-- Erasing the (at most one) matching line leaves none. -/
theorem eraseP_no_match (p : String → Bool) (l : List String)
    (h : l.countP p ≤ 1) : (l.eraseP p).countP p = 0 := by
  induction l with
  | nil => rfl
  | cons a t ih =>
    rcases hp : p a with _ | _
    · rw [List.eraseP_cons_of_neg (by simp [hp])]
      rw [List.countP_cons, hp] at h
      rw [List.countP_cons, hp]
      simp only [Bool.false_eq_true, if_false, Nat.add_zero] at h ⊢
      exact ih h
    · rw [List.eraseP_cons_of_pos hp]
      rw [List.countP_cons, hp, if_pos rfl] at h
      omega
  
/-- Erasing a matching line preserves the non-matching ones. -/
theorem filter_eraseP_not (p : String → Bool) (l : List String) :
    (l.eraseP p).filter (fun x => !(p x)) = l.filter (fun x => !(p x)) := by
  induction l with
  | nil => rfl
  | cons a t ih =>
    rcases hp : p a with _ | _
    · rw [List.eraseP_cons_of_neg (by simp [hp])]
      simp [List.filter_cons, hp, ih]
    · rw [List.eraseP_cons_of_pos hp]
      simp [List.filter_cons, hp]

/-- The removal loop equals `eraseP` when at most one line matches and
the portion already scanned contains no match. -/
theorem setCfgLoop_eraseP (var : String) (fuel : Nat) :
    ∀ (i : Nat) (lines : List String),
      lines.length - i ≤ fuel →
      (lines.take i).countP (cfgKeyIs var) = 0 →
      lines.countP (cfgKeyIs var) ≤ 1 →
      setCfgLoop var fuel i lines = lines.eraseP (cfgKeyIs var) := by
  induction fuel with
  | zero =>
    intro i lines hf hpre _
    have hi : lines.length ≤ i := by omega
    rw [List.take_of_length_le hi] at hpre
    have : lines.eraseP (cfgKeyIs var) = lines :=
      List.eraseP_of_forall_not (fun a ha => by
        simpa using List.countP_eq_zero.mp hpre a ha)
    rw [setCfgLoop, this]
  | succ fuel ih =>
    intro i lines hf hpre hcnt
    rw [setCfgLoop]
    by_cases hi : i < lines.length
    · have hdrop : lines.drop i = lines.get ⟨i, hi⟩ :: lines.drop (i + 1) := by
        rw [List.drop_eq_getElem_cons hi]
        rfl
      have hsplit : lines = lines.take i ++ lines.get ⟨i, hi⟩ :: lines.drop (i + 1) := by
        conv_lhs => rw [← List.take_append_drop i lines]
        rw [hdrop]
      have htake : ∀ l ∈ lines.take i, ¬ (cfgKeyIs var l = true) := fun l hl => by
        simpa using List.countP_eq_zero.mp hpre l hl
      by_cases hpx : cfgKeyIs var (lines.get ⟨i, hi⟩) = true
      · have hxnot : lines.get ⟨i, hi⟩ ∉ lines.take i := fun hmem => htake _ hmem hpx
        have herase : lines.erase (lines.get ⟨i, hi⟩) =
            lines.take i ++ lines.drop (i + 1) := by
          have h1 : (lines.take i ++ lines.get ⟨i, hi⟩ :: lines.drop (i + 1)).erase
              (lines.get ⟨i, hi⟩) = lines.take i ++ lines.drop (i + 1) := by
            rw [List.erase_append_right _ hxnot, List.erase_cons_head]
          rw [← hsplit] at h1
          exact h1
        have hcnt_eq : lines.countP (cfgKeyIs var) =
            (lines.take i).countP (cfgKeyIs var) +
              ((lines.drop (i + 1)).countP (cfgKeyIs var) + 1) := by
          conv_lhs => rw [hsplit]
          rw [List.countP_append, List.countP_cons, hpx, if_pos rfl]
        have hdropz : (lines.drop (i + 1)).countP (cfgKeyIs var) = 0 := by omega
        have hallz : (lines.take i ++ lines.drop (i + 1)).countP (cfgKeyIs var) = 0 := by
          rw [List.countP_append, hpre, hdropz]
        have hzero : ((lines.take i ++ lines.drop (i + 1)).drop (i + 1)).countP
            (cfgKeyIs var) = 0 := by
          have h2 := (List.drop_sublist (i + 1)
            (lines.take i ++ lines.drop (i + 1))).countP_le (cfgKeyIs var)
          omega
        have heraseP : lines.eraseP (cfgKeyIs var) =
            lines.take i ++ lines.drop (i + 1) := by
          conv_lhs => rw [hsplit]
          rw [List.eraseP_append_right _ (by
            intro b hb
            simpa using htake b hb)]
          rw [List.eraseP_cons_of_pos hpx]
        simp only [hi, dif_pos, hpx, if_true]
        rw [herase, setCfgLoop_id var fuel (i + 1) _ hzero, heraseP]
      · have hx : cfgKeyIs var (lines.get ⟨i, hi⟩) = false := by
          rcases hb : cfgKeyIs var (lines.get ⟨i, hi⟩) with _ | _
          · rfl
          · exact absurd hb hpx
        have hpre' : (lines.take (i + 1)).countP (cfgKeyIs var) = 0 := by
          rw [List.take_succ, List.getElem?_eq_getElem hi]
          rw [List.countP_append, hpre]
          have hx' : cfgKeyIs var lines[i] = false := hx
          simp [hx']
        simp only [hi, dif_pos, hx, if_false, Bool.false_eq_true, if_neg]
        exact ih (i + 1) lines (by omega) hpre' hcnt
    · have hi' : lines.length ≤ i := by omega
      rw [List.take_of_length_le hi'] at hpre
      have : lines.eraseP (cfgKeyIs var) = lines :=
        List.eraseP_of_forall_not (fun a ha => by
          simpa using List.countP_eq_zero.mp hpre a ha)
      simp [hi, this]

/-- C5 counterexample: with two prior lines keyed `TARGET`, the
mutating-iteration removal loop skips the second one, so after
`set_cfg("TARGET", "NEW")` the surviving stale line shadows the appended
one and `get_cfg` does not return the just-set value. -/
theorem C5_cfg_counterexample :
    get_cfg (set_cfg ["TARGET=K64F", "TARGET=OLD"] "TARGET" "NEW") "TARGET" none =
      some "OLD"
    ∧ set_cfg ["TARGET=K64F", "TARGET=OLD"] "TARGET" "NEW" =
        ["TARGET=OLD", "TARGET=NEW"]
    ∧ (some "OLD" : Option String) ≠ some "NEW" :=
  ⟨by decide, by decide, by decide⟩

/-- C5 amended: provided at most one line of the prior content carries
key `k` (and `k` is a nonempty `[\w+-]+` key, `v` newline-free), setting
then getting round-trips, the loop-plus-append equals erase-first-match
plus append, and every line whose key differs from `k` is preserved
unchanged, in order. -/
theorem C5_cfg_roundtrip (lines : List String) (k v : String)
    (hk0 : k.toList ≠ []) (hk : ∀ c ∈ k.toList, chWordPM c = true)
    (hv : ∀ c ∈ v.toList, c ≠ '\n')
    (hcount : lines.countP (cfgKeyIs k) ≤ 1) :
    get_cfg (set_cfg lines k v) k none = some v
    ∧ set_cfg lines k v = lines.eraseP (cfgKeyIs k) ++ [k ++ "=" ++ v]
    ∧ (set_cfg lines k v).filter (fun l => !(cfgKeyIs k l)) =
        lines.filter (fun l => !(cfgKeyIs k l)) := by
  have hkv := cfgKeyIs_append k v hk0 hk hv
  have heq : set_cfg lines k v = lines.eraseP (cfgKeyIs k) ++ [k ++ "=" ++ v] := by
    rw [set_cfg, setCfgLoop_eraseP k lines.length 0 lines (by omega) (by simp) hcount]
  refine ⟨?_, heq, ?_⟩
  · rw [get_cfg, heq]
    have hzero : (lines.eraseP (cfgKeyIs k)).countP (cfgKeyIs k) = 0 :=
      eraseP_no_match _ _ hcount
    have hnone : (lines.eraseP (cfgKeyIs k)).find? (cfgKeyIs k) = none :=
      List.find?_eq_none.mpr (fun x hx => by
        simpa using List.countP_eq_zero.mp hzero x hx)
    rw [List.find?_append, hnone]
    simp only [Option.none_or]
    rw [List.find?_cons_of_pos _ hkv.1]
    exact hkv.2
  · rw [heq, List.filter_append]
    have : List.filter (fun l => !(cfgKeyIs k l)) [k ++ "=" ++ v] = [] := by
      simp [List.filter_cons, hkv.1]
    rw [this, List.append_nil]
    exact filter_eraseP_not _ _

/-- Witness for C5's amended theorem on a concrete two-line file. -/
theorem C5_cfg_roundtrip_witness :
    get_cfg (set_cfg ["TOOLCHAIN=GCC_ARM", "TARGET=OLD"] "TARGET" "K64F") "TARGET" none =
      some "K64F"
    ∧ (set_cfg ["TOOLCHAIN=GCC_ARM", "TARGET=OLD"] "TARGET" "K64F").filter
        (fun l => !(cfgKeyIs "TARGET" l)) =
        ["TOOLCHAIN=GCC_ARM", "TARGET=OLD"].filter (fun l => !(cfgKeyIs "TARGET" l)) :=
  ⟨(C5_cfg_roundtrip ["TOOLCHAIN=GCC_ARM", "TARGET=OLD"] "TARGET" "K64F"
      (by decide) (by decide) (by decide) (by decide)).1,
   (C5_cfg_roundtrip ["TOOLCHAIN=GCC_ARM", "TARGET=OLD"] "TARGET" "K64F"
      (by decide) (by decide) (by decide) (by decide)).2.2⟩

/-! ## C4: the reference-file round trip -/

/-- Membership decomposition for sequencing. -/
theorem mem_reM_seq {a b : RE} {c : Caps} {s : List Char} {x : Caps × List Char}
    (h : x ∈ reM (RE.seq a b) c s) : ∃ y ∈ reM a c s, x ∈ reM b y.1 y.2 := by
  simp only [reM] at h
  exact List.mem_flatMap.mp h

theorem mem_reM_cls {p : Char → Bool} {c : Caps} {s : List Char} {x : Caps × List Char}
    (h : x ∈ reM (RE.cls p) c s) :
    ∃ ch t, s = ch :: t ∧ p ch = true ∧ x = (c, t) := by
  cases s with
  | nil => simp [reM] at h
  | cons ch t =>
    rcases hp : p ch with _ | _
    · simp [reM, hp] at h
    · simp [reM, hp] at h
      exact ⟨ch, t, rfl, hp, h⟩

theorem mem_reM_opt {a : RE} {c : Caps} {s : List Char} {x : Caps × List Char}
    (h : x ∈ reM (RE.opt a) c s) : x ∈ reM a c s ∨ x = (c, s) := by
  simp only [reM] at h
  rcases List.mem_append.mp h with h | h
  · exact Or.inl h
  · simp at h
    exact Or.inr h

theorem mem_reM_grp {n : Nat} {a : RE} {c : Caps} {s : List Char} {x : Caps × List Char}
    (h : x ∈ reM (RE.grp n a) c s) :
    ∃ y ∈ reM a c s, x = (setCap y.1 n (s.take (s.length - y.2.length)), y.2) := by
  simp only [reM] at h
  obtain ⟨y, hy, heq⟩ := List.mem_map.mp h
  exact ⟨y, hy, heq.symm⟩

theorem mem_reM_starL {p : Char → Bool} {c : Caps} {s : List Char} {x : Caps × List Char}
    (h : x ∈ reM (RE.starL p) c s) :
    ∃ pre r, s = pre ++ r ∧ (∀ a ∈ pre, p a = true) ∧ x = (c, r) := by
  simp only [reM] at h
  obtain ⟨r, hr, heq⟩ := List.mem_map.mp h
  rw [List.mem_reverse] at hr
  obtain ⟨pre, hpre, hall⟩ := mem_starRests hr
  exact ⟨pre, r, hpre, hall, heq.symm⟩

theorem mem_reM_eos {c : Caps} {s : List Char} {x : Caps × List Char}
    (h : x ∈ reM RE.eos c s) : s = [] ∧ x = (c, []) := by
  cases s with
  | nil =>
    simp [reM] at h
    exact ⟨rfl, h⟩
  | cons ch t => simp [reM] at h

/-- If a separator is absent from the left factor, it splits the right
factor. -/
theorem sep_in_right {sep : Char} {X Y P Q : List Char}
    (h : X ++ Y = P ++ sep :: Q) (hX : sep ∉ X) :
    ∃ M, Y = M ++ sep :: Q ∧ P = X ++ M := by
  induction X generalizing P with
  | nil => exact ⟨P, by simpa using h, by simp⟩
  | cons a X' ih =>
    cases P with
    | nil =>
      simp at h
      exfalso
      apply hX
      rw [← h.1]
      exact List.mem_cons_self _ _
    | cons p P' =>
      simp at h
      obtain ⟨M, hM1, hM2⟩ := ih h.2 (fun hm => hX (List.mem_cons_of_mem _ hm))
      exact ⟨M, hM1, by simp [h.1, hM2]⟩

/-- Splitting at a separator that occurs exactly once is unambiguous. -/
theorem single_sep_split {sep : Char} {P Q pre r : List Char}
    (hP : sep ∉ P) (hQ : sep ∉ Q)
    (h : P ++ sep :: Q = pre ++ sep :: r) : pre = P ∧ r = Q := by
  induction P generalizing pre with
  | nil =>
    cases pre with
    | nil =>
      simp at h
      exact ⟨rfl, h.symm⟩
    | cons c pre' =>
      simp at h
      exfalso
      apply hQ
      rw [h.2]
      exact List.mem_append_right _ (List.mem_cons_self _ _)
  | cons p P' ih =>
    cases pre with
    | nil =>
      simp at h
      exfalso
      apply hP
      rw [h.1]
      exact List.mem_cons_self _ _
    | cons c pre' =>
      simp at h
      obtain ⟨h1, h2⟩ := ih (fun hm => hP (List.mem_cons_of_mem _ hm)) h.2
      exact ⟨by simp [h1, h.1], h2⟩

/-- Characters of the `[\w+-]` class are ordinary: not whitespace, not a
backslash, not one of the structural characters. -/
theorem chWordPM_props {c : Char} (h : chWordPM c = true) :
    pyWs c = false ∧ c ≠ '\\' ∧ c ≠ '/' ∧ c ≠ ':' ∧ c ≠ '#' ∧ chDot c = true := by
  refine ⟨?_, ?_, ?_, ?_, ?_, ?_⟩
  · rcases hw : pyWs c with _ | _
    · rfl
    · exfalso
      simp [pyWs] at hw
      rcases hw with (((((rfl | rfl) | rfl) | rfl) | rfl) | rfl) <;>
        simp [chWordPM, chWord] at h
  · intro he
    subst he
    exact absurd h (by decide)
  · intro he
    subst he
    exact absurd h (by decide)
  · intro he
    subst he
    exact absurd h (by decide)
  · intro he
    subst he
    exact absurd h (by decide)
  · have : c ≠ '\n' := by
      intro he
      subst he
      exact absurd h (by decide)
    exact decide_eq_true this

/-- Characters of the `[\w./+-]` class are never a colon. -/
theorem chLocal2_ne_colon {c : Char} (h : chLocal2 c = true) : c ≠ ':' := by
  intro he
  subst he
  exact absurd h (by decide)

/-- `dropWhile` is the identity when the head does not satisfy the
predicate. -/
theorem dropWhile_eq_self_of_head {p : Char → Bool} {l : List Char}
    (h : ∀ c, l.head? = some c → p c = false) : l.dropWhile p = l := by
  cases l with
  | nil => rfl
  | cons c t =>
    rw [List.dropWhile_cons, if_neg]
    simp [h c rfl]

/-- `replace(a, b)` is the identity on text free of `a`. -/
theorem pyReplace_id {a b : Char} : ∀ (s : List Char), (∀ c ∈ s, c ≠ a) →
    pyReplace a b s = s
  | [], _ => rfl
  | c :: t, h => by
    have hc : c ≠ a := h c (List.mem_cons_self _ _)
    have ht := pyReplace_id (a := a) (b := b) t (fun x hx => h x (List.mem_cons_of_mem _ hx))
    simp only [pyReplace, List.map_cons, if_neg hc]
    simp only [pyReplace] at ht
    rw [ht]

/-- `strip()` removes exactly the trailing newline from a
whitespace-free body. -/
theorem pyStrip_body_newline {B : List Char} (h : ∀ c ∈ B, pyWs c = false) :
    pyStrip (B ++ ['\n']) = B := by
  cases B with
  | nil => rfl
  | cons b0 bt =>
    have h0 : pyWs b0 = false := h b0 (List.mem_cons_self _ _)
    unfold pyStrip
    have h1 : (b0 :: bt ++ ['\n']).dropWhile pyWs = b0 :: bt ++ ['\n'] := by
      apply dropWhile_eq_self_of_head
      intro c hc
      simp only [List.cons_append, List.head?_cons, Option.some.injEq] at hc
      rw [← hc]; exact h0
    rw [h1]
    have h2 : (b0 :: bt ++ ['\n']).reverse = '\n' :: (b0 :: bt).reverse := by
      rw [List.reverse_append]; rfl
    rw [h2, List.dropWhile_cons, if_pos (by decide)]
    have h3 : (b0 :: bt).reverse.dropWhile pyWs = (b0 :: bt).reverse := by
      apply dropWhile_eq_self_of_head
      intro c hc
      have hmem : c ∈ (b0 :: bt).reverse := head?_some_mem hc
      rw [List.mem_reverse] at hmem
      exact h c hmem
    rw [h3, List.reverse_reverse]

/-- `rstrip('/')` is the identity when the last character is not a
slash. -/
theorem pyRstripSlash_id {s : List Char} {c : Char} (hc : c ≠ '/')
    (h : s.getLast? = some c) : pyRstripSlash s = s := by
  unfold pyRstripSlash
  have h1 : s.reverse.dropWhile (fun x => decide (x = '/')) = s.reverse := by
    apply dropWhile_eq_self_of_head
    intro x hx
    rw [List.head?_reverse, h] at hx
    simp only [Option.some.injEq] at hx
    subst hx
    simp [hc]
  rw [h1, List.reverse_reverse]

/-- Characters of the `[\w./+-]` class are never a colon or a hash. -/
theorem chLocal2_props {c : Char} (h : chLocal2 c = true) : c ≠ ':' ∧ c ≠ '#' := by
  constructor
  · intro he
    subst he
    exact absurd h (by decide)
  · intro he
    subst he
    exact absurd h (by decide)

/-- The first-character class of `regex_local_ref` is contained in the
tail class. -/
theorem chLocal1_to_2 {c : Char} (h : chLocal1 c = true) : chLocal2 c = true := by
  simp [chLocal2, h]

/-- A locator with a colon before any hash is rejected by
`regex_local_ref`: every character the pattern can place before its
optional `#` lies in `[\w./+-]`, which has no colon. -/
theorem localRE_no_match {s P Q : List Char}
    (hs : s = P ++ ':' :: Q) (hP : '#' ∉ P) :
    matchFull localRE s = none := by
  rw [matchFull]
  suffices hh : reM localRE [] s = [] by rw [hh]; rfl
  by_contra hne
  obtain ⟨x, hx⟩ := List.exists_mem_of_ne_nil _ hne
  simp only [localRE, seqL] at hx
  obtain ⟨y, hy, hx1⟩ := mem_reM_seq hx
  obtain ⟨z, hz, hyz⟩ := mem_reM_grp hy
  obtain ⟨w, hw, hz1⟩ := mem_reM_seq hz
  obtain ⟨ch, t, hst, hch, hwv⟩ := mem_reM_cls hw
  rw [hwv] at hz1
  obtain ⟨pre, r, htr, hpre, hzv⟩ := mem_reM_starL hz1
  have htr' : t = pre ++ r := htr
  simp only [hyz, hzv] at hx1
  have hclean : ∀ c ∈ ch :: pre, c ≠ ':' ∧ c ≠ '#' := by
    intro c hc
    rcases List.mem_cons.mp hc with rfl | hc
    · exact chLocal2_props (chLocal1_to_2 hch)
    · exact chLocal2_props (hpre c hc)
  obtain ⟨u, hu, hx2⟩ := mem_reM_seq hx1
  have key : ∃ X, s = X ++ u.2 ∧ ∀ c ∈ X, c ≠ ':' ∧ c ≠ '#' := by
    rcases mem_reM_opt hu with hu' | hu'
    · obtain ⟨c2, t2, hrt, hc2, huv⟩ := mem_reM_cls hu'
      have hc2' : c2 = '/' := by simpa using hc2
      refine ⟨(ch :: pre) ++ [c2], ?_, ?_⟩
      · rw [huv, hst, htr', hrt]
        simp
      · intro c hc
        rcases List.mem_append.mp hc with hc | hc
        · exact hclean c hc
        · simp only [List.mem_singleton] at hc
          subst hc
          rw [hc2']
          exact ⟨by decide, by decide⟩
    · refine ⟨ch :: pre, ?_, hclean⟩
      rw [hu', hst, htr']
      simp
  obtain ⟨X, hsX, hXc⟩ := key
  have hXcolon : (':' : Char) ∉ X := fun hm => (hXc _ hm).1 rfl
  obtain ⟨v, hv, hx3⟩ := mem_reM_seq hx2
  rcases mem_reM_opt hv with hv' | hv'
  · obtain ⟨w2, hw2, hv1⟩ := mem_reM_seq hv'
    obtain ⟨c3, t3, hrt3, hc3, hwv2⟩ := mem_reM_cls hw2
    have hc3' : c3 = '#' := by simpa using hc3
    subst hc3'
    have heq : X ++ ('#' :: t3) = P ++ ':' :: Q := by
      rw [← hrt3, ← hsX, hs]
    obtain ⟨M, hM1, hM2⟩ := sep_in_right heq hXcolon
    cases M with
    | nil => simp at hM1
    | cons m M' =>
      simp only [List.cons_append, List.cons.injEq] at hM1
      apply hP
      rw [hM2, ← hM1.1]
      exact List.mem_append_right _ (List.mem_cons_self _ _)
  · obtain ⟨e, he, hx4⟩ := mem_reM_seq hx3
    rw [hv'] at he
    obtain ⟨hnil, _⟩ := mem_reM_eos he
    have hcol : (':' : Char) ∈ s := by
      rw [hs]
      exact List.mem_append_right _ (List.mem_cons_self _ _)
    rw [hsX, hnil, List.append_nil] at hcol
    exact (hXc _ hcol).1 rfl

/-- A class character at the head of a sequence is consumed
deterministically. -/
theorem reM_seq_cls_pos {p : Char → Bool} {b : RE} {c : Caps} {ch : Char} {w : List Char}
    (h : p ch = true) : reM (RE.seq (RE.cls p) b) c (ch :: w) = reM b c w := by
  simp [reM, h]

/-- Non-whitespace characters satisfy the `.` class. -/
theorem pyWs_false_chDot {c : Char} (h : pyWs c = false) : chDot c = true := by
  have hne : c ≠ '\n' := by
    intro he
    subst he
    simp [pyWs] at h
  exact decide_eq_true hne

/-- `regex_url_ref` on a pinned reference `A/name/#H`: the greedy `.*`
drives group 1 to `A/name`, group 2 to `name`, group 3 to `H`. -/
theorem urlRef_match_pinned {A nm H : List Char}
    (hA : ∀ c ∈ A, chDot c = true)
    (hnm0 : nm ≠ [])
    (hnm : ∀ c ∈ nm, chWordPM c = true)
    (hH : ∀ c ∈ H, chDot c = true ∧ c ≠ '/') :
    matchFull urlRefRE (A ++ '/' :: (nm ++ '/' :: '#' :: H)) =
      some [(3, H), (1, A ++ '/' :: nm), (2, nm)] := by
  obtain ⟨n0, nt, hnm'⟩ : ∃ n0 nt, nm = n0 :: nt := by
    cases nm with
    | nil => exact absurd rfl hnm0
    | cons a b => exact ⟨a, b, rfl⟩
  have hplus : (reM (RE.plusG chWordPM) [] (nm ++ '/' :: '#' :: H)).head? =
      some ([], '/' :: '#' :: H) := by
    rw [hnm', List.cons_append]
    exact reM_plusG_first (hnm n0 (by rw [hnm']; exact List.mem_cons_self _ _))
      (fun c hc => hnm c (by rw [hnm']; exact List.mem_cons_of_mem _ hc))
      (fun ch hh => by
        simp at hh
        rw [← hh]
        decide)
  have hgrp2 : (reM (RE.grp 2 (RE.plusG chWordPM)) [] (nm ++ '/' :: '#' :: H)).head? =
      some ([(2, nm)], '/' :: '#' :: H) := by
    have h := reM_grp_first (n := 2) hplus
    rw [h]
    simp only [setCap, List.filter_nil, List.length_append, List.length_cons]
    rw [show nm.length + (H.length + 1 + 1) - (H.length + 1 + 1) = nm.length from by omega,
      List.take_left]
  have hoptext : (reM (RE.opt (RE.seq (RE.cls (fun c => c = '.')) (RE.plusG chWord)))
      [(2, nm)] ('/' :: '#' :: H)).head? = some ([(2, nm)], '/' :: '#' :: H) :=
    reM_opt_skip (reM_seq_nil (reM_cls_nil_neg (by decide)))
  have hb : (reM (RE.seq (RE.cls (fun c => c = '/'))
      (RE.seq (RE.grp 2 (RE.plusG chWordPM))
        (RE.seq (RE.opt (RE.seq (RE.cls (fun c => c = '.')) (RE.plusG chWord))) RE.eps)))
      [] ('/' :: (nm ++ '/' :: '#' :: H))).head? = some ([(2, nm)], '/' :: '#' :: H) :=
    reM_seq_first (reM_cls_first (by decide))
      (reM_seq_first hgrp2 (reM_seq_first hoptext reM_eps_first))
  have hnoslash_nm : '/' ∉ nm := fun hm => (chWordPM_props (hnm _ hm)).2.2.1 rfl
  have hnoslash_t : '/' ∉ '#' :: H := by
    intro hm
    rcases List.mem_cons.mp hm with hm | hm
    · exact absurd hm.symm (by decide)
    · exact (hH _ hm).2 rfl
  have hfail : ∀ pre r, '/' :: (nm ++ '/' :: '#' :: H) = pre ++ r → pre ≠ [] →
      reM (RE.seq (RE.cls (fun c => c = '/'))
        (RE.seq (RE.grp 2 (RE.plusG chWordPM))
          (RE.seq (RE.opt (RE.seq (RE.cls (fun c => c = '.')) (RE.plusG chWord))) RE.eps)))
        [] r = [] := by
    intro pre r heq hne
    cases pre with
    | nil => exact absurd rfl hne
    | cons p0 pre' =>
      simp only [List.cons_append, List.cons.injEq] at heq
      cases r with
      | nil => exact reM_seq_nil reM_cls_nil_empty
      | cons c0 r' =>
        by_cases hc0 : c0 = '/'
        · subst hc0
          obtain ⟨hpr, hrr⟩ := single_sep_split hnoslash_nm hnoslash_t heq.2
          subst hrr
          rw [reM_seq_cls_pos (by decide)]
          exact reM_seq_nil (reM_grp_nil (reM_plusG_nil_neg (by decide)))
        · exact reM_seq_nil (reM_cls_nil_neg (by simp [hc0]))
  have hinner : (reM (RE.seq (RE.starG chDot)
      (RE.seq (RE.cls (fun c => c = '/'))
        (RE.seq (RE.grp 2 (RE.plusG chWordPM))
          (RE.seq (RE.opt (RE.seq (RE.cls (fun c => c = '.')) (RE.plusG chWord))) RE.eps))))
      [] (A ++ '/' :: (nm ++ '/' :: '#' :: H))).head? = some ([(2, nm)], '/' :: '#' :: H) :=
    reM_seq_starG_mid hA hfail hb
  have hsplit : A ++ '/' :: (nm ++ '/' :: '#' :: H) = (A ++ '/' :: nm) ++ '/' :: '#' :: H := by
    simp
  have hgrp1 : (reM (RE.grp 1 (RE.seq (RE.starG chDot)
      (RE.seq (RE.cls (fun c => c = '/'))
        (RE.seq (RE.grp 2 (RE.plusG chWordPM))
          (RE.seq (RE.opt (RE.seq (RE.cls (fun c => c = '.')) (RE.plusG chWord))) RE.eps)))))
      [] (A ++ '/' :: (nm ++ '/' :: '#' :: H))).head? =
      some ([(1, A ++ '/' :: nm), (2, nm)], '/' :: '#' :: H) := by
    have h := reM_grp_first (n := 1) hinner
    rw [h]
    rw [hsplit]
    simp only [setCap, List.length_append, List.length_cons]
    rw [show A.length + (nm.length + 1) + (H.length + 1 + 1) - (H.length + 1 + 1) =
      ((A ++ '/' :: nm)).length from by simp, List.take_left]
    simp
  have hstar3 : (reM (RE.starG chDot) [(1, A ++ '/' :: nm), (2, nm)] H).head? =
      some ([(1, A ++ '/' :: nm), (2, nm)], []) := by
    have h := reM_starG_first (c := [(1, A ++ '/' :: nm), (2, nm)]) (A := H) (t := [])
      (fun a ha => (hH a ha).1)
      (fun ch hh => by simp at hh)
    rw [List.append_nil] at h
    exact h
  have hgrp3 : (reM (RE.grp 3 (RE.starG chDot)) [(1, A ++ '/' :: nm), (2, nm)] H).head? =
      some ([(3, H), (1, A ++ '/' :: nm), (2, nm)], []) := by
    have h := reM_grp_first (n := 3) hstar3
    rw [h]
    simp [setCap]
  have hhash2 : (reM (RE.seq (RE.cls (fun c => c = '#')) (RE.grp 3 (RE.starG chDot)))
      [(1, A ++ '/' :: nm), (2, nm)] ('#' :: H)).head? =
      some ([(3, H), (1, A ++ '/' :: nm), (2, nm)], []) :=
    reM_seq_first (reM_cls_first (by decide)) hgrp3
  have heoseps : (reM (RE.seq RE.eos RE.eps) [(3, H), (1, A ++ '/' :: nm), (2, nm)]
      ([] : List Char)).head? = some ([(3, H), (1, A ++ '/' :: nm), (2, nm)], []) :=
    reM_seq_first reM_eos_first reM_eps_first
  have htail2 : (reM (RE.seq (RE.opt (RE.seq (RE.cls (fun c => c = '#'))
      (RE.grp 3 (RE.starG chDot)))) (RE.seq RE.eos RE.eps))
      [(1, A ++ '/' :: nm), (2, nm)] ('#' :: H)).head? =
      some ([(3, H), (1, A ++ '/' :: nm), (2, nm)], []) :=
    reM_seq_first (reM_opt_first hhash2) heoseps
  have htail : (reM (RE.seq (RE.opt (RE.cls (fun c => c = '/')))
      (RE.seq (RE.opt (RE.seq (RE.cls (fun c => c = '#')) (RE.grp 3 (RE.starG chDot))))
        (RE.seq RE.eos RE.eps)))
      [(1, A ++ '/' :: nm), (2, nm)] ('/' :: '#' :: H)).head? =
      some ([(3, H), (1, A ++ '/' :: nm), (2, nm)], []) :=
    reM_seq_first (reM_opt_first (reM_cls_first (by decide))) htail2
  have hfull : (reM urlRefRE [] (A ++ '/' :: (nm ++ '/' :: '#' :: H))).head? =
      some ([(3, H), (1, A ++ '/' :: nm), (2, nm)], []) := by
    show (reM (RE.seq (RE.grp 1 _) _) [] _).head? = _
    exact reM_seq_first hgrp1 htail
  rw [matchFull, hfull]
  rfl

/-- `regex_url_ref` on an unpinned reference `A/name/`: group 1 is
`A/name`, group 2 is `name`, group 3 does not take part. -/
theorem urlRef_match_unpinned {A nm : List Char}
    (hA : ∀ c ∈ A, chDot c = true)
    (hnm0 : nm ≠ [])
    (hnm : ∀ c ∈ nm, chWordPM c = true) :
    matchFull urlRefRE (A ++ '/' :: (nm ++ ['/'])) =
      some [(1, A ++ '/' :: nm), (2, nm)] := by
  obtain ⟨n0, nt, hnm'⟩ : ∃ n0 nt, nm = n0 :: nt := by
    cases nm with
    | nil => exact absurd rfl hnm0
    | cons a b => exact ⟨a, b, rfl⟩
  have hplus : (reM (RE.plusG chWordPM) [] (nm ++ ['/'])).head? = some ([], ['/']) := by
    rw [hnm', List.cons_append]
    exact reM_plusG_first (hnm n0 (by rw [hnm']; exact List.mem_cons_self _ _))
      (fun c hc => hnm c (by rw [hnm']; exact List.mem_cons_of_mem _ hc))
      (fun ch hh => by
        simp at hh
        rw [← hh]
        decide)
  have hgrp2 : (reM (RE.grp 2 (RE.plusG chWordPM)) [] (nm ++ ['/'])).head? =
      some ([(2, nm)], ['/']) := by
    have h := reM_grp_first (n := 2) hplus
    rw [h]
    simp only [setCap, List.filter_nil, List.length_append, List.length_cons,
      List.length_nil]
    rw [show nm.length + (0 + 1) - (0 + 1) = nm.length from by omega, List.take_left]
  have hoptext : (reM (RE.opt (RE.seq (RE.cls (fun c => c = '.')) (RE.plusG chWord)))
      [(2, nm)] ['/']).head? = some ([(2, nm)], ['/']) :=
    reM_opt_skip (reM_seq_nil (reM_cls_nil_neg (by decide)))
  have hb : (reM (RE.seq (RE.cls (fun c => c = '/'))
      (RE.seq (RE.grp 2 (RE.plusG chWordPM))
        (RE.seq (RE.opt (RE.seq (RE.cls (fun c => c = '.')) (RE.plusG chWord))) RE.eps)))
      [] ('/' :: (nm ++ ['/']))).head? = some ([(2, nm)], ['/']) :=
    reM_seq_first (reM_cls_first (by decide))
      (reM_seq_first hgrp2 (reM_seq_first hoptext reM_eps_first))
  have hnoslash_nm : '/' ∉ nm := fun hm => (chWordPM_props (hnm _ hm)).2.2.1 rfl
  have hnoslash_t : '/' ∉ ([] : List Char) := by simp
  have hfail : ∀ pre r, '/' :: (nm ++ ['/']) = pre ++ r → pre ≠ [] →
      reM (RE.seq (RE.cls (fun c => c = '/'))
        (RE.seq (RE.grp 2 (RE.plusG chWordPM))
          (RE.seq (RE.opt (RE.seq (RE.cls (fun c => c = '.')) (RE.plusG chWord))) RE.eps)))
        [] r = [] := by
    intro pre r heq hne
    cases pre with
    | nil => exact absurd rfl hne
    | cons p0 pre' =>
      simp only [List.cons_append, List.cons.injEq] at heq
      cases r with
      | nil => exact reM_seq_nil reM_cls_nil_empty
      | cons c0 r' =>
        by_cases hc0 : c0 = '/'
        · subst hc0
          obtain ⟨hpr, hrr⟩ := single_sep_split hnoslash_nm hnoslash_t heq.2
          subst hrr
          rw [reM_seq_cls_pos (by decide)]
          exact reM_seq_nil (reM_grp_nil reM_plusG_nil_empty)
        · exact reM_seq_nil (reM_cls_nil_neg (by simp [hc0]))
  have hinner : (reM (RE.seq (RE.starG chDot)
      (RE.seq (RE.cls (fun c => c = '/'))
        (RE.seq (RE.grp 2 (RE.plusG chWordPM))
          (RE.seq (RE.opt (RE.seq (RE.cls (fun c => c = '.')) (RE.plusG chWord))) RE.eps))))
      [] (A ++ '/' :: (nm ++ ['/']))).head? = some ([(2, nm)], ['/']) :=
    reM_seq_starG_mid hA hfail hb
  have hsplit : A ++ '/' :: (nm ++ ['/']) = (A ++ '/' :: nm) ++ ['/'] := by
    simp
  have hgrp1 : (reM (RE.grp 1 (RE.seq (RE.starG chDot)
      (RE.seq (RE.cls (fun c => c = '/'))
        (RE.seq (RE.grp 2 (RE.plusG chWordPM))
          (RE.seq (RE.opt (RE.seq (RE.cls (fun c => c = '.')) (RE.plusG chWord))) RE.eps)))))
      [] (A ++ '/' :: (nm ++ ['/']))).head? =
      some ([(1, A ++ '/' :: nm), (2, nm)], ['/']) := by
    have h := reM_grp_first (n := 1) hinner
    rw [h]
    rw [hsplit]
    simp only [setCap, List.length_append, List.length_cons, List.length_nil]
    rw [show A.length + (nm.length + 1) + (0 + 1) - (0 + 1) =
      ((A ++ '/' :: nm)).length from by simp, List.take_left]
    simp
  have hopthash : (reM (RE.opt (RE.seq (RE.cls (fun c => c = '#'))
      (RE.grp 3 (RE.starG chDot)))) [(1, A ++ '/' :: nm), (2, nm)]
      ([] : List Char)).head? = some ([(1, A ++ '/' :: nm), (2, nm)], []) :=
    reM_opt_skip (reM_seq_nil reM_cls_nil_empty)
  have heoseps : (reM (RE.seq RE.eos RE.eps) [(1, A ++ '/' :: nm), (2, nm)]
      ([] : List Char)).head? = some ([(1, A ++ '/' :: nm), (2, nm)], []) :=
    reM_seq_first reM_eos_first reM_eps_first
  have htail2 : (reM (RE.seq (RE.opt (RE.seq (RE.cls (fun c => c = '#'))
      (RE.grp 3 (RE.starG chDot)))) (RE.seq RE.eos RE.eps))
      [(1, A ++ '/' :: nm), (2, nm)] ([] : List Char)).head? =
      some ([(1, A ++ '/' :: nm), (2, nm)], []) :=
    reM_seq_first hopthash heoseps
  have htail : (reM (RE.seq (RE.opt (RE.cls (fun c => c = '/')))
      (RE.seq (RE.opt (RE.seq (RE.cls (fun c => c = '#')) (RE.grp 3 (RE.starG chDot))))
        (RE.seq RE.eos RE.eps)))
      [(1, A ++ '/' :: nm), (2, nm)] ['/']).head? =
      some ([(1, A ++ '/' :: nm), (2, nm)], []) :=
    reM_seq_first (reM_opt_first (reM_cls_first (by decide))) htail2
  have hfull : (reM urlRefRE [] (A ++ '/' :: (nm ++ ['/']))).head? =
      some ([(1, A ++ '/' :: nm), (2, nm)], []) := by
    show (reM (RE.seq (RE.grp 1 _) _) [] _).head? = _
    exact reM_seq_first hgrp1 htail
  rw [matchFull, hfull]
  rfl

/-- Evaluate `Repo.fromurl` once both pattern outcomes are known: the
local grammar fails and the url grammar matches with captures `m`. -/
theorem Repo_fromurl_eval {url : String} {m : Caps}
    (h1 : matchFull localRE (pyReplace '\\' '/' (pyStrip url.toList)) = none)
    (h2 : matchFull urlRefRE (pyReplace '\\' '/' (pyStrip url.toList)) = some m) :
    Repo_fromurl url =
      some { url := formaturl (String.mk ((getCap m 1).getD [])) "default"
             hash := (getCap m 3).map String.mk
             is_local := false } := by
  unfold Repo_fromurl
  simp only [h1, h2]

/-- C4 (amended): writing a reference file and parsing it back
round-trips, for a canonical remote URL (a `formaturl` fixpoint whose
authority part holds a colon but no hash, with a word-character final
path segment) and a revision free of slashes. -/
theorem C4_roundtrip (U : String) (hash : Option String) (A nm : List Char)
    (hU : U.toList = A ++ '/' :: nm)
    (hAcol : ':' ∈ A)
    (hA : ∀ c ∈ A, pyWs c = false ∧ c ≠ '\\' ∧ c ≠ '#')
    (hnm0 : nm ≠ [])
    (hnm : ∀ c ∈ nm, chWordPM c = true)
    (hhash : ∀ h, hash = some h → h.toList ≠ [] ∧
      ∀ c ∈ h.toList, pyWs c = false ∧ c ≠ '\\' ∧ c ≠ '/')
    (hform : formaturl U "default" = U) :
    ∃ content, writeContent U hash = some content ∧
      Repo_fromurl content = some { url := U, hash := hash, is_local := false } := by
  have hUd : U.data = A ++ '/' :: nm := hU
  have hUne : U ≠ "" := by
    intro he
    subst he
    simp at hU
  have hlast : pyRstripSlash U.toList = U.toList := by
    obtain ⟨c, hcmem, hcl⟩ : ∃ c ∈ nm, nm.getLast? = some c :=
      ⟨nm.getLast hnm0, List.getLast_mem hnm0, List.getLast?_eq_getLast nm hnm0⟩
    apply pyRstripSlash_id ((chWordPM_props (hnm c hcmem)).2.2.1)
    rw [hU, show A ++ '/' :: nm = (A ++ ['/']) ++ nm from by simp,
      List.getLast?_append_of_ne_nil _ hnm0]
    exact hcl
  have hmkU : String.mk U.toList = U := rfl
  have hAdot : ∀ c ∈ A, chDot c = true := fun c hc => pyWs_false_chDot (hA c hc).1
  obtain ⟨P, Q', hAeq⟩ := List.append_of_mem hAcol
  have hPnohash : '#' ∉ P := by
    intro hm
    have hmA : '#' ∈ A := by
      rw [hAeq]
      exact List.mem_append_left _ hm
    exact (hA _ hmA).2.2 rfl
  rcases hash with _ | h
  · refine ⟨(U ++ "/" ++ "") ++ "\n", ?_, ?_⟩
    · simp only [writeContent, Repo_fullurl]
      rw [if_pos hUne, hlast, hmkU]
      rfl
    · have hCl : ((U ++ "/" ++ "") ++ "\n").toList = (A ++ '/' :: (nm ++ ['/'])) ++ ['\n'] := by
        show ((U ++ "/" ++ "") ++ "\n").data = _
        rw [String.data_append, String.data_append, String.data_append, hUd]
        simp
      have hws : ∀ c ∈ A ++ '/' :: (nm ++ ['/']), pyWs c = false := by
        intro c hc
        rcases List.mem_append.mp hc with hc | hc
        · exact (hA c hc).1
        · rcases List.mem_cons.mp hc with rfl | hc
          · decide
          · rcases List.mem_append.mp hc with hc | hc
            · exact (chWordPM_props (hnm c hc)).1
            · simp at hc
              subst hc
              decide
      have hbs : ∀ c ∈ A ++ '/' :: (nm ++ ['/']), c ≠ '\\' := by
        intro c hc
        rcases List.mem_append.mp hc with hc | hc
        · exact (hA c hc).2.1
        · rcases List.mem_cons.mp hc with rfl | hc
          · decide
          · rcases List.mem_append.mp hc with hc | hc
            · exact (chWordPM_props (hnm c hc)).2.1
            · simp at hc
              subst hc
              decide
      have hu : pyReplace '\\' '/' (pyStrip (((U ++ "/" ++ "") ++ "\n").toList)) =
          A ++ '/' :: (nm ++ ['/']) := by
        rw [hCl, pyStrip_body_newline hws, pyReplace_id _ hbs]
      have hloc : matchFull localRE (A ++ '/' :: (nm ++ ['/'])) = none := by
        apply localRE_no_match (P := P) (Q := Q' ++ '/' :: (nm ++ ['/'])) _ hPnohash
        rw [hAeq]
        simp
      have hurl := urlRef_match_unpinned hAdot hnm0 hnm
      rw [Repo_fromurl_eval (by rw [hu]; exact hloc) (by rw [hu]; exact hurl)]
      have hgc1 : ((getCap [(1, A ++ '/' :: nm), (2, nm)] 1).getD []) = A ++ '/' :: nm := rfl
      have hgc3 : (getCap [(1, A ++ '/' :: nm), (2, nm)] 3).map String.mk =
          (none : Option String) := rfl
      rw [hgc1, hgc3, ← hU, hmkU, hform]
  · obtain ⟨hh0, hhc⟩ := hhash h rfl
    have hhne : h ≠ "" := by
      intro he
      subst he
      exact hh0 rfl
    refine ⟨(U ++ "/" ++ ("#" ++ h)) ++ "\n", ?_, ?_⟩
    · simp only [writeContent, Repo_fullurl]
      rw [if_pos hUne, hlast, hmkU, if_pos hhne]
      rfl
    · have hCl : ((U ++ "/" ++ ("#" ++ h)) ++ "\n").toList =
          (A ++ '/' :: (nm ++ '/' :: '#' :: h.toList)) ++ ['\n'] := by
        show ((U ++ "/" ++ ("#" ++ h)) ++ "\n").data = _
        rw [String.data_append, String.data_append, String.data_append, String.data_append,
          hUd]
        simp
      have hws : ∀ c ∈ A ++ '/' :: (nm ++ '/' :: '#' :: h.toList), pyWs c = false := by
        intro c hc
        rcases List.mem_append.mp hc with hc | hc
        · exact (hA c hc).1
        · rcases List.mem_cons.mp hc with rfl | hc
          · decide
          · rcases List.mem_append.mp hc with hc | hc
            · exact (chWordPM_props (hnm c hc)).1
            · rcases List.mem_cons.mp hc with rfl | hc
              · decide
              · rcases List.mem_cons.mp hc with rfl | hc
                · decide
                · exact (hhc c hc).1
      have hbs : ∀ c ∈ A ++ '/' :: (nm ++ '/' :: '#' :: h.toList), c ≠ '\\' := by
        intro c hc
        rcases List.mem_append.mp hc with hc | hc
        · exact (hA c hc).2.1
        · rcases List.mem_cons.mp hc with rfl | hc
          · decide
          · rcases List.mem_append.mp hc with hc | hc
            · exact (chWordPM_props (hnm c hc)).2.1
            · rcases List.mem_cons.mp hc with rfl | hc
              · decide
              · rcases List.mem_cons.mp hc with rfl | hc
                · decide
                · exact (hhc c hc).2.1
      have hu : pyReplace '\\' '/' (pyStrip (((U ++ "/" ++ ("#" ++ h)) ++ "\n").toList)) =
          A ++ '/' :: (nm ++ '/' :: '#' :: h.toList) := by
        rw [hCl, pyStrip_body_newline hws, pyReplace_id _ hbs]
      have hloc : matchFull localRE (A ++ '/' :: (nm ++ '/' :: '#' :: h.toList)) = none := by
        apply localRE_no_match (P := P)
          (Q := Q' ++ '/' :: (nm ++ '/' :: '#' :: h.toList)) _ hPnohash
        rw [hAeq]
        simp
      have hurl := urlRef_match_pinned hAdot hnm0 hnm
        (fun c hc => ⟨pyWs_false_chDot (hhc c hc).1, (hhc c hc).2.2⟩)
      rw [Repo_fromurl_eval (by rw [hu]; exact hloc) (by rw [hu]; exact hurl)]
      have hgc1 : ((getCap [(3, h.toList), (1, A ++ '/' :: nm), (2, nm)] 1).getD []) =
          A ++ '/' :: nm := rfl
      have hgc3 : (getCap [(3, h.toList), (1, A ++ '/' :: nm), (2, nm)] 3).map String.mk =
          some (String.mk h.toList) := rfl
      have hmkh : String.mk h.toList = h := rfl
      rw [hgc1, hgc3, hmkh, ← hU, hmkU, hform]

/-- The unconditional round-trip of C4 fails: for the canonical URL
`https://h/p` and the revision `b/c`, the written line `https://h/p/#b/c`
parses back with the whole line as the URL and no revision, because the
greedy `.*` of `regex_url_ref` swallows the `#` once the revision itself
contains a slash. -/
theorem C4_roundtrip_counterexample :
    formaturl "https://h/p" "default" = "https://h/p" ∧
    writeContent "https://h/p" (some "b/c") = some "https://h/p/#b/c\n" ∧
    Repo_fromurl "https://h/p/#b/c\n" =
      some { url := "https://h/p/#b/c", hash := none, is_local := false } ∧
    Repo_fromurl "https://h/p/#b/c\n" ≠
      some { url := "https://h/p", hash := some "b/c", is_local := false } := by
  decide

/-- Witness: the amended round-trip at `https://host/lib` pinned to
`abc123`. -/
theorem C4_roundtrip_witness :
    ∃ content, writeContent "https://host/lib" (some "abc123") = some content ∧
      Repo_fromurl content =
        some { url := "https://host/lib", hash := some "abc123", is_local := false } :=
  C4_roundtrip "https://host/lib" (some "abc123") "https://host".toList "lib".toList
    (by decide) (by decide) (by decide) (by decide) (by decide)
    (fun h he => by
      injection he with he
      subst he
      exact ⟨by decide, by decide⟩)
    (by decide)
